import Mathlib

/-!
Verification of the FemtoXML Studio tree model.

The development embeds the shared editable-tree utilities (`buildEditableTree`,
`findNodeByParameterPath`, `setNodeValueByPath`, `regenerateIds`) and, where the
repository snapshot only ships the consumers, a model of the diff worker built
from the specification (path canonicalizer, tree aligner, diff classifier,
progress protocol).  String manipulation is implemented over `List Char` so the
definitions stay executable inside the kernel.
-/

/-- Whitespace test used by the JavaScript `trim()` calls in the source. -/
def isWS (c : Char) : Bool := c = ' ' || c = '\t' || c = '\n' || c = '\r'

/-- Strip leading and trailing whitespace, preserving internal whitespace
(models `String.prototype.trim`). -/
def trimStr (s : String) : String :=
  ⟨((s.data.dropWhile isWS).reverse.dropWhile isWS).reverse⟩

/-- Concatenation of a list of strings (models `Array.prototype.join("")`). -/
def joinStrs : List String → String
  | [] => ""
  | s :: rest => s ++ joinStrs rest

/-- Canonical node of a parsed XML document, mirroring the non-compact xml-js
representation consumed by `buildEditableTree`: elements carry a name, an
attribute record and a child list; text and CData nodes are leaves. -/
inductive XNode where
  | element (name : String) (attributes : List (String × String)) (elements : List XNode)
  | text (s : String)
  | cdata (s : String)

/-- Test for `n.type === "element"`. -/
def isElem : XNode → Bool
  | .element _ _ _ => true
  | _ => false

/-- Test for `n.type === "text" || n.type === "cdata"`. -/
def isTextLike : XNode → Bool
  | .text _ => true
  | .cdata _ => true
  | _ => false

/-- Content of a text or CData node (models `n.text || ""`). -/
def textOf : XNode → String
  | .text s => s
  | .cdata s => s
  | .element _ _ _ => ""

/-- Name of an element node (empty for leaves, which are never named). -/
def elName : XNode → String
  | .element n _ _ => n
  | _ => ""

/-- Child list of an element node. -/
def childrenOf : XNode → List XNode
  | .element _ _ es => es
  | _ => []

/-- Attribute record of an element node (models `el.attributes || {}`). -/
def attrsOf : XNode → List (String × String)
  | .element _ a _ => a
  | _ => []

/-- Lookup in a string-keyed counter record, `0` when the key is absent
(models `siblingCounts[name] || 0`). -/
def lookupCount : List (String × Nat) → String → Nat
  | [], _ => 0
  | (k, v) :: rest, key => if k = key then v else lookupCount rest key

/-- Record update `siblingCounts[name] = count`. -/
def setCount : List (String × Nat) → String → Nat → List (String × Nat)
  | [], key, c => [(key, c)]
  | (k, v) :: rest, key, c =>
    if k = key then (key, c) :: rest else (k, v) :: setCount rest key c

/-- Child path template shared by `buildEditableTree` and `regenerateIds`:
the parent prefix followed by a dot and `name[count]`, with no leading dot
when the prefix is empty. -/
def mkChildPath (pre nm : String) (k : Nat) : String :=
  if pre = "" then nm ++ "[" ++ toString k ++ "]"
  else pre ++ "." ++ nm ++ "[" ++ toString k ++ "]"

/-- Editable tree node (`EditableNode` in `src/utils/xmlTree.ts`).  Lean
structures cannot be recursive, so the record is an inductive with explicit
accessors below. -/
inductive EditableNode where
  | mk (id path name value : String) (attributes : List (String × String))
      (isText : Bool) (children : List EditableNode)

/-- Accessor for the `id` field. -/
def EditableNode.id : EditableNode → String
  | .mk i _ _ _ _ _ _ => i

/-- Accessor for the `path` field. -/
def EditableNode.path : EditableNode → String
  | .mk _ p _ _ _ _ _ => p

/-- Accessor for the `name` field. -/
def EditableNode.name : EditableNode → String
  | .mk _ _ nm _ _ _ _ => nm

/-- Accessor for the `value` field. -/
def EditableNode.value : EditableNode → String
  | .mk _ _ _ v _ _ _ => v

/-- Accessor for the `attributes` field. -/
def EditableNode.attributes : EditableNode → List (String × String)
  | .mk _ _ _ _ a _ _ => a

/-- Accessor for the `isText` field. -/
def EditableNode.isTextF : EditableNode → Bool
  | .mk _ _ _ _ _ t _ => t

/-- Accessor for the `children` field. -/
def EditableNode.children : EditableNode → List EditableNode
  | .mk _ _ _ _ _ _ c => c

/-- Worker of `buildEditableTree`: walks the sibling list carrying the
per-name `siblingCounts` record.  Non-element entries are skipped exactly as
the source's `forEach` early-returns on them, so recursing into the full child
list below is equivalent to the source's recursion into
`elements.filter (type === "element")`. -/
def buildGo : List XNode → String → String → List (String × Nat) → List EditableNode
  | [], _, _, _ => []
  | .text _ :: rest, path, parentPath, counts => buildGo rest path parentPath counts
  | .cdata _ :: rest, path, parentPath, counts => buildGo rest path parentPath counts
  | .element nm attrs elems :: rest, path, parentPath, counts =>
    let name := if nm = "" then "unnamed" else nm
    let count := lookupCount counts name + 1
    let currentPath := mkChildPath path name count
    let fullParentPath := if parentPath = "" then name else parentPath ++ "." ++ name
    let textValue := trimStr (joinStrs ((elems.filter isTextLike).map textOf))
    EditableNode.mk currentPath currentPath name textValue attrs true
        (buildGo elems currentPath fullParentPath [])
      :: buildGo rest path parentPath (setCount counts name count)

/-- Entry point matching `buildEditableTree(elements, path = "", parentPath = "")`:
a fresh sibling-counter record is used per parent. -/
def buildEditableTree (elements : List XNode) (path : String := "")
    (parentPath : String := "") : List EditableNode :=
  buildGo elements path parentPath []

/-- Worker of `regenerateIds`, threading the per-name sibling counter and
resetting it for each recursion into a child list. -/
def regenGo : List EditableNode → String → List (String × Nat) → List EditableNode
  | [], _, _ => []
  | .mk _ _ nm v a t c :: rest, parentPath, counts =>
    let count := lookupCount counts nm + 1
    let currentPath := mkChildPath parentPath nm count
    EditableNode.mk currentPath currentPath nm v a t (regenGo c currentPath [])
      :: regenGo rest parentPath (setCount counts nm count)

/-- Entry point matching `regenerateIds(nodes, parentPath = "")`. -/
def regenerateIds (nodes : List EditableNode) (parentPath : String := "") :
    List EditableNode :=
  regenGo nodes parentPath []

/-- Names of the element entries of a sibling list, after the `unnamed`
defaulting done by `buildEditableTree`. -/
def elemNames (es : List XNode) : List String :=
  (es.filter isElem).map (fun e => if elName e = "" then "unnamed" else elName e)

theorem lookupCount_setCount_same (l : List (String × Nat)) (k : String) (c : Nat) :
    lookupCount (setCount l k c) k = c := by
  induction l with
  | nil => simp [setCount, lookupCount]
  | cons p rest ih =>
    obtain ⟨k', v⟩ := p
    by_cases h : k' = k
    · simp [setCount, lookupCount, h]
    · simp [setCount, lookupCount, h, ih]

theorem lookupCount_setCount_other (l : List (String × Nat)) (k k' : String) (c : Nat)
    (hne : k' ≠ k) : lookupCount (setCount l k c) k' = lookupCount l k' := by
  induction l with
  | nil => simp [setCount, lookupCount, Ne.symm hne]
  | cons p rest ih =>
    obtain ⟨k0, v⟩ := p
    by_cases h : k0 = k
    · subst h
      simp [setCount, lookupCount, Ne.symm hne]
    · simp [setCount, lookupCount, h, ih]

theorem elemNames_text (s : String) (rest : List XNode) :
    elemNames (XNode.text s :: rest) = elemNames rest := by
  simp [elemNames, isElem, List.filter]

theorem elemNames_cdata (s : String) (rest : List XNode) :
    elemNames (XNode.cdata s :: rest) = elemNames rest := by
  simp [elemNames, isElem, List.filter]

theorem elemNames_element (nm : String) (a : List (String × String)) (es rest : List XNode) :
    elemNames (XNode.element nm a es :: rest) =
      (if nm = "" then "unnamed" else nm) :: elemNames rest := by
  simp [elemNames, isElem, List.filter, elName]

theorem buildGo_path (es : List XNode) :
    ∀ (path parentPath : String) (counts : List (String × Nat)) (j : Nat) (nm : String),
    (elemNames es).get? j = some nm →
    ((buildGo es path parentPath counts).get? j).map EditableNode.path =
        some (mkChildPath path nm
          (lookupCount counts nm + ((elemNames es).take (j+1)).count nm)) ∧
      ((buildGo es path parentPath counts).get? j).map EditableNode.name = some nm := by
  induction es with
  | nil => intro path parentPath counts j nm h; simp [elemNames] at h
  | cons e rest ih =>
    intro path parentPath counts j nm h
    cases e with
    | text s =>
      rw [elemNames_text] at h
      obtain ⟨h1, h2⟩ := ih path parentPath counts j nm h
      rw [elemNames_text]
      exact ⟨by simpa [buildGo] using h1, by simpa [buildGo] using h2⟩
    | cdata s =>
      rw [elemNames_cdata] at h
      obtain ⟨h1, h2⟩ := ih path parentPath counts j nm h
      rw [elemNames_cdata]
      exact ⟨by simpa [buildGo] using h1, by simpa [buildGo] using h2⟩
    | element nm0 attrs elems =>
      rw [elemNames_element] at h
      rw [elemNames_element]
      cases j with
      | zero =>
        simp only [List.get?_cons_zero, Option.some.injEq] at h
        subst h
        constructor
        · simp only [buildGo, List.get?_cons_zero, Option.map_some,
            List.take_succ_cons, List.take_zero, Option.some.injEq]
          simp [EditableNode.path, List.count_cons]
        · simp [buildGo, EditableNode.name]
      | succ j =>
        simp only [List.get?_cons_succ] at h
        obtain ⟨h1, h2⟩ :=
          ih path parentPath
            (setCount counts (if nm0 = "" then "unnamed" else nm0)
              (lookupCount counts (if nm0 = "" then "unnamed" else nm0) + 1)) j nm h
        constructor
        · rw [show (buildGo (XNode.element nm0 attrs elems :: rest) path parentPath counts).get?
              (j+1) = (buildGo rest path parentPath
                (setCount counts (if nm0 = "" then "unnamed" else nm0)
                  (lookupCount counts (if nm0 = "" then "unnamed" else nm0) + 1))).get? j from by
            simp [buildGo]]
          rw [h1]
          by_cases hn : (if nm0 = "" then "unnamed" else nm0) = nm
          · rw [hn, List.take_succ_cons, List.count_cons, lookupCount_setCount_same]
            simp [Nat.add_assoc, Nat.add_comm 1]
          · rw [List.take_succ_cons, List.count_cons,
              lookupCount_setCount_other _ _ _ _ (Ne.symm hn)]
            simp [hn]
        · rw [show (buildGo (XNode.element nm0 attrs elems :: rest) path parentPath counts).get?
              (j+1) = (buildGo rest path parentPath
                (setCount counts (if nm0 = "" then "unnamed" else nm0)
                  (lookupCount counts (if nm0 = "" then "unnamed" else nm0) + 1))).get? j from by
            simp [buildGo]]
          exact h2

theorem regenGo_path (ns : List EditableNode) :
    ∀ (parentPath : String) (counts : List (String × Nat)) (j : Nat) (n : EditableNode),
    ns.get? j = some n →
    ((regenGo ns parentPath counts).get? j).map EditableNode.path =
      some (mkChildPath parentPath (EditableNode.name n)
        (lookupCount counts (EditableNode.name n) +
          (((ns.take (j+1)).map EditableNode.name).count (EditableNode.name n)))) := by
  induction ns with
  | nil => intro parentPath counts j n h; simp at h
  | cons e rest ih =>
    intro parentPath counts j n h
    obtain ⟨i0, p0, nm0, v0, a0, t0, c0⟩ := e
    cases j with
    | zero =>
      simp only [List.get?_cons_zero, Option.some.injEq] at h
      subst h
      simp only [regenGo, List.get?_cons_zero, Option.map_some,
        List.take_succ_cons, List.take_zero, List.map_cons, Option.some.injEq]
      simp [EditableNode.path, List.count_cons, EditableNode.name]
    | succ j =>
      simp only [List.get?_cons_succ] at h
      obtain ⟨ni, np, nnm, nv, na, nt, nc⟩ := n
      have h1 := ih parentPath (setCount counts nm0 (lookupCount counts nm0 + 1)) j _ h
      rw [show (regenGo (EditableNode.mk i0 p0 nm0 v0 a0 t0 c0 :: rest) parentPath counts).get?
          (j+1) = (regenGo rest parentPath
            (setCount counts nm0 (lookupCount counts nm0 + 1))).get? j from by
        simp [regenGo]]
      rw [h1]
      simp only [EditableNode.name] at *
      by_cases hn : nm0 = nnm
      · rw [List.take_succ_cons, List.map_cons, List.count_cons, hn, lookupCount_setCount_same]
        simp [EditableNode.name, Nat.add_assoc, Nat.add_comm 1]
      · rw [List.take_succ_cons, List.map_cons, List.count_cons,
          lookupCount_setCount_other _ _ _ _ (Ne.symm hn)]
        simp [EditableNode.name, hn]

/-- C1: for every ordered sibling list and parent prefix, the j-th element
sibling named `nm` is assigned the segment `nm[k]` where `k` is the 1-based
count of prior-or-current same-named siblings (the per-name counter restarts
for each parent because both workers recurse with an empty record); the full
path is the parent prefix, a dot, and the segment, with no leading dot when
the prefix is empty.  This holds for `buildEditableTree` and `regenerateIds`. -/
theorem c1_sibling_paths :
    (∀ (es : List XNode) (path parentPath : String) (j : Nat) (nm : String),
      (elemNames es).get? j = some nm →
      ((buildEditableTree es path parentPath).get? j).map EditableNode.path =
          some (mkChildPath path nm (((elemNames es).take (j+1)).count nm)) ∧
        ((buildEditableTree es path parentPath).get? j).map EditableNode.name = some nm) ∧
    (∀ (ns : List EditableNode) (parentPath : String) (j : Nat) (n : EditableNode),
      ns.get? j = some n →
      ((regenerateIds ns parentPath).get? j).map EditableNode.path =
        some (mkChildPath parentPath (EditableNode.name n)
          (((ns.take (j+1)).map EditableNode.name).count (EditableNode.name n)))) := by
  constructor
  · intro es path parentPath j nm h
    obtain ⟨h1, h2⟩ := buildGo_path es path parentPath [] j nm h
    exact ⟨by simpa [lookupCount, buildEditableTree] using h1,
      by simpa [buildEditableTree] using h2⟩
  · intro ns parentPath j n h
    have h1 := regenGo_path ns parentPath [] j n h
    simpa [lookupCount, regenerateIds] using h1

/-- Witness for C1: in `<a/><b/><a/>` the third sibling (second `a`) gets the
segment `a[2]`. -/
theorem c1_sibling_paths_witness :
    ((buildEditableTree
        [XNode.element ("a") [] [], XNode.element ("b") [] [], XNode.element ("a") [] []]
        "" "").get? 2).map EditableNode.path =
      some (mkChildPath ""
        ("a")
        (((elemNames
          [XNode.element ("a") [] [], XNode.element ("b") [] [],
            XNode.element ("a") [] []]).take 3).count ("a"))) :=
  (c1_sibling_paths.1
    [XNode.element ("a") [] [], XNode.element ("b") [] [], XNode.element ("a") [] []]
    "" "" 2 ("a") (by decide)).1

/-- Replace every slash by a dot (models `replace(/\//g, ".")`). -/
def slashToDot (s : String) : String :=
  ⟨s.data.map (fun c => if c = '/' then '.' else c)⟩

/-- Collapse runs of consecutive dots to a single dot
(models `replace(/\.+/g, ".")`). -/
def collapseDots : List Char → List Char
  | [] => []
  | [c] => [c]
  | c :: c2 :: rest =>
    if c = '.' && c2 = '.' then collapseDots (c2 :: rest)
    else c :: collapseDots (c2 :: rest)

/-- Normalization done at the top of `findNodeByParameterPath`:
`pathStr.trim().replace(/\//g, ".").replace(/\.+/g, ".")`. -/
def normalizePath (s : String) : String :=
  ⟨collapseDots (slashToDot (trimStr s)).data⟩

/-- Split a character list at dots, keeping empty chunks
(models `split(".")`). -/
def splitDots : List Char → List (List Char)
  | [] => [[]]
  | c :: rest =>
    let r := splitDots rest
    if c = '.' then [] :: r
    else
      match r with
      | [] => [[c]]
      | seg :: segs => (c :: seg) :: segs

/-- Segments of a normalized path: `split(".").filter(Boolean)`. -/
def splitSegs (s : String) : List String :=
  ((splitDots s.data).map (fun l => String.mk l)).filter (fun t => t ≠ "")

/-- Numeric value of a list of ASCII digits (models `parseInt(_, 10)` on the
digit capture of the segment regex). -/
def digitsToNat (ds : List Char) : Nat :=
  ds.foldl (fun acc c => acc * 10 + (c.toNat - '0'.toNat)) 0

/-- Parse a parameter path segment `name` or `name[k]` (models the regex
`^(.+?)(?:\[(\d+)\])?$`: with the lazy name group and the end anchor, the
final bracketed digit run — when present, non-empty, and preceded by a
non-empty name — is the index, and everything before it is the name). -/
def parsePathSegment (segment : String) : String × Option Nat :=
  let s := trimStr segment
  match s.data.reverse with
  | ']' :: rest =>
    match rest.takeWhile Char.isDigit, rest.dropWhile Char.isDigit with
    | [], _ => (s, none)
    | _ :: _, '[' :: [] => (s, none)
    | ds, '[' :: nameRev => (⟨nameRev.reverse⟩, some (digitsToNat ds.reverse))
    | _ :: _, _ => (s, none)
  | _ => (s, none)

/-- Segment walk of `findNodeByParameterPath`: at each level collect the
same-named siblings, pick the requested 1-based occurrence with fallback to
the first one, and descend into its children. -/
def walk : List String → List EditableNode → Option EditableNode
  | [], _ => none
  | seg :: rest, nodes =>
    let pr := parsePathSegment seg
    match nodes.filter (fun n => EditableNode.name n = pr.1) with
    | [] => none
    | first :: others =>
      let target :=
        match pr.2 with
        | some k =>
          if 1 ≤ k then ((first :: others).get? (k - 1)).getD first else first
        | none => first
      if rest.isEmpty then some target else walk rest (EditableNode.children target)

mutual

/-- Recursive pre-pass of `findNodeByParameterPath` (the `for` loop before
the walk): for each node in order, return it when its `id` equals the
trimmed query string, otherwise run the FULL lookup recursively on its
children — including the segment walk inside that subtree — and return its
result when it finds something. -/
def prePass : List EditableNode → String → Option EditableNode
  | [], _ => none
  | .mk i p nm v a t c :: rest, s =>
    if i = trimStr s then some (.mk i p nm v a t c)
    else
      match findNodeByParameterPath c s with
      | some found => some found
      | none => prePass rest s
termination_by l _ => (sizeOf l, 0)

/-- Shallow embedding of `findNodeByParameterPath`: normalize the query,
run the recursive pre-pass (exact id match or any hit of the full lookup
inside a subtree), then split into segments and walk at this level. -/
def findNodeByParameterPath (nodes : List EditableNode) (pathStr : String) :
    Option EditableNode :=
  if normalizePath pathStr = "" then none
  else
    match prePass nodes pathStr with
    | some n => some n
    | none =>
      if (splitSegs (normalizePath pathStr)).isEmpty then none
      else walk (splitSegs (normalizePath pathStr)) nodes
termination_by (sizeOf nodes, 1)

end

/-- C9: when the first segment carries an explicit index `k ≥ 1` and the level
has a non-zero number of same-named siblings smaller than `k`, the walk does
not fail: it falls back to the first same-named sibling and continues
resolution there (so the out-of-range index resolves to occurrence 1). -/
theorem c9_index_fallback (nodes : List EditableNode) (pathStr : String)
    (seg : String) (rest : List String) (nm : String) (k : Nat)
    (first : EditableNode) (others : List EditableNode)
    (hid : prePass nodes pathStr = none)
    (hnz : normalizePath pathStr ≠ "")
    (hsegs : splitSegs (normalizePath pathStr) = seg :: rest)
    (hparse : parsePathSegment seg = (nm, some k))
    (hk : 1 ≤ k)
    (hfilter : nodes.filter (fun n => EditableNode.name n = nm) = first :: others)
    (hlen : (first :: others).length < k) :
    findNodeByParameterPath nodes pathStr =
      (if rest.isEmpty then some first else walk rest (EditableNode.children first)) := by
  have hget : ((first :: others).get? (k - 1)) = none := by
    apply List.get?_eq_none.mpr
    omega
  have hwalk : walk (seg :: rest) nodes =
      (if rest.isEmpty then some first else walk rest (EditableNode.children first)) := by
    conv_lhs => rw [walk]
    simp only [hparse, hfilter, hget, Option.getD_none, if_pos hk]
  unfold findNodeByParameterPath
  rw [if_neg hnz, hid, hsegs]
  simp only [List.isEmpty_cons, Bool.false_eq_true, if_false]
  exact hwalk

/-- Witness for C9: looking up `a[5].b` in a tree whose only root is one `a`
with a single child `b` resolves through the first `a`. -/
theorem c9_index_fallback_witness :
    findNodeByParameterPath
      [EditableNode.mk ("a[1]") ("a[1]") ("a") ("") [] true
        [EditableNode.mk ("a[1].b[1]") ("a[1].b[1]") ("b") ("v") [] true []]]
      ("a[5].b") =
      some (EditableNode.mk ("a[1].b[1]") ("a[1].b[1]") ("b") ("v") [] true []) := by
  have h := c9_index_fallback
    [EditableNode.mk ("a[1]") ("a[1]") ("a") ("") [] true
      [EditableNode.mk ("a[1].b[1]") ("a[1].b[1]") ("b") ("v") [] true []]]
    ("a[5].b") ("a[5]") ["b"] ("a") 5
    (EditableNode.mk ("a[1]") ("a[1]") ("a") ("") [] true
      [EditableNode.mk ("a[1].b[1]") ("a[1].b[1]") ("b") ("v") [] true []])
    []
    (by simp [prePass, findNodeByParameterPath, walk, EditableNode.name,
          show trimStr ("a[5].b") = ("a[5].b") from by decide,
          show normalizePath ("a[5].b") = ("a[5].b") from by decide,
          show splitSegs ("a[5].b") = [("a[5]"), ("b")] from by decide,
          show parsePathSegment ("a[5]") = (("a"), some 5) from by decide])
    (by decide)
    (by decide)
    (by decide)
    (by decide)
    rfl
    (by decide)
  rw [h]
  rfl

/-- Node lookup at a tree position: index into the sibling list, then descend
into the children along the remaining indices. -/
def getAtP (nodes : List EditableNode) (i : Nat) : List Nat → Option EditableNode
  | [] => nodes.get? i
  | j :: q =>
    match nodes.get? i with
    | none => none
    | some n => getAtP (EditableNode.children n) j q

/-- Update the element at a list index (identity when out of range). -/
def modifyIdx (f : EditableNode → EditableNode) : List EditableNode → Nat → List EditableNode
  | [], _ => []
  | n :: rest, 0 => f n :: rest
  | n :: rest, i + 1 => n :: modifyIdx f rest i

/-- Replace the `value` field of a node, keeping every other field. -/
def withValue : EditableNode → String → EditableNode
  | .mk i p nm _ a t c, v => .mk i p nm v a t c

/-- Replace the `children` field of a node, keeping every other field. -/
def withChildren : EditableNode → List EditableNode → EditableNode
  | .mk i p nm v a t _, c => .mk i p nm v a t c

/-- Fields of a node other than its children: exactly the per-node data an
in-place mutation of a different node cannot touch. -/
def localOf : EditableNode → String × String × String × String × List (String × String) × Bool
  | .mk i p nm v a t _ => (i, p, nm, v, a, t)

/-- Functional update of the `value` field of the node at a tree position
(out-of-range positions leave the tree unchanged). -/
def setAtP (v : String) (nodes : List EditableNode) (i : Nat) : List Nat → List EditableNode
  | [] => modifyIdx (fun n => withValue n v) nodes i
  | j :: q =>
    match nodes.get? i with
    | none => nodes
    | some n =>
      let sub := setAtP v (EditableNode.children n) j q
      modifyIdx (fun m => withChildren m sub) nodes i

/-- Index, within the full sibling list, of the `c`-th (0-based) node
satisfying the predicate. -/
def idxOfNth (p : EditableNode → Bool) : List EditableNode → Nat → Option Nat
  | [], _ => none
  | n :: rest, c =>
    if p n then
      match c with
      | 0 => some 0
      | c' + 1 => (idxOfNth p rest c').map (· + 1)
    else (idxOfNth p rest c).map (· + 1)

/-- Position-returning variant of `walk`, locating the same node. -/
def walkPos : List String → List EditableNode → Option (Nat × List Nat)
  | [], _ => none
  | seg :: rest, nodes =>
    let pr := parsePathSegment seg
    match nodes.filter (fun n => EditableNode.name n = pr.1) with
    | [] => none
    | first :: others =>
      let c :=
        match pr.2 with
        | some k =>
          if 1 ≤ k then (if k - 1 < (first :: others).length then k - 1 else 0) else 0
        | none => 0
      match idxOfNth (fun n => EditableNode.name n = pr.1) nodes c with
      | none => none
      | some i =>
        match nodes.get? i with
        | none => none
        | some tgt =>
          if rest.isEmpty then some (i, [])
          else
            match walkPos rest (EditableNode.children tgt) with
            | some pos => some (i, pos.1 :: pos.2)
            | none => none

mutual

/-- Position-returning variant of `prePass`, used to model the in-place
mutation done by `setNodeValueByPath`: like the source pre-pass it matches
the exact id or recursively runs the full position lookup on the children. -/
def prePassPos : List EditableNode → String → Option (Nat × List Nat)
  | [], _ => none
  | .mk i p nm v a t c :: rest, s =>
    if i = trimStr s then some (0, [])
    else
      match findNodePos c s with
      | some pos => some (0, pos.1 :: pos.2)
      | none =>
        match prePassPos rest s with
        | some pos => some (pos.1 + 1, pos.2)
        | none => none
termination_by l _ => (sizeOf l, 0)

/-- Position-returning variant of `findNodeByParameterPath`. -/
def findNodePos (nodes : List EditableNode) (pathStr : String) :
    Option (Nat × List Nat) :=
  if normalizePath pathStr = "" then none
  else
    match prePassPos nodes pathStr with
    | some pos => some pos
    | none =>
      if (splitSegs (normalizePath pathStr)).isEmpty then none
      else walkPos (splitSegs (normalizePath pathStr)) nodes
termination_by (sizeOf nodes, 1)

end

/-- Shallow embedding of `setNodeValueByPath`.  The source finds the node via
`findNodeByParameterPath` and mutates `node.value` in place; here the position
of that node is located and the tree rebuilt with exactly that value replaced,
paired with the boolean result. -/
def setNodeValueByPath (nodes : List EditableNode) (pathStr value : String) :
    List EditableNode × Bool :=
  match findNodePos nodes pathStr with
  | none => (nodes, false)
  | some pos => (setAtP value nodes pos.1 pos.2, true)

theorem children_withValue (n : EditableNode) (v : String) :
    EditableNode.children (withValue n v) = EditableNode.children n := by
  obtain ⟨i, p, nm, v0, a, t, c⟩ := n
  rfl

theorem children_withChildren (n : EditableNode) (c : List EditableNode) :
    EditableNode.children (withChildren n c) = c := by
  obtain ⟨i, p, nm, v0, a, t, c0⟩ := n
  rfl

theorem localOf_withChildren (n : EditableNode) (c : List EditableNode) :
    localOf (withChildren n c) = localOf n := by
  obtain ⟨i, p, nm, v0, a, t, c0⟩ := n
  rfl

theorem modifyIdx_get?_same (f : EditableNode → EditableNode) :
    ∀ (l : List EditableNode) (i : Nat), (modifyIdx f l i).get? i = (l.get? i).map f := by
  intro l
  induction l with
  | nil => intro i; simp [modifyIdx]
  | cons n rest ih =>
    intro i
    cases i with
    | zero => simp [modifyIdx]
    | succ i => simpa [modifyIdx] using ih i

theorem modifyIdx_get?_other (f : EditableNode → EditableNode) :
    ∀ (l : List EditableNode) (i i' : Nat), i ≠ i' →
      (modifyIdx f l i).get? i' = l.get? i' := by
  intro l
  induction l with
  | nil => intro i i' h; simp [modifyIdx]
  | cons n rest ih =>
    intro i i' h
    cases i with
    | zero =>
      cases i' with
      | zero => exact absurd rfl h
      | succ i' => simp [modifyIdx]
    | succ i =>
      cases i' with
      | zero => simp [modifyIdx]
      | succ i' => simpa [modifyIdx] using ih i i' (fun hc => h (by rw [hc]))

theorem getAtP_cons_succ (x : EditableNode) (rest : List EditableNode) (i : Nat)
    (q : List Nat) : getAtP (x :: rest) (i + 1) q = getAtP rest i q := by
  cases q with
  | nil => simp [getAtP]
  | cons j q' => simp [getAtP]

theorem getAtP_modifyIdx_other (f : EditableNode → EditableNode)
    (t : List EditableNode) (i i' : Nat) (q' : List Nat) (h : i ≠ i') :
    getAtP (modifyIdx f t i) i' q' = getAtP t i' q' := by
  cases q' with
  | nil =>
    simp only [getAtP]
    rw [modifyIdx_get?_other f t i i' h]
  | cons j q =>
    simp only [getAtP]
    rw [modifyIdx_get?_other f t i i' h]

theorem getAtP_setAtP_same (v : String) :
    ∀ (q : List Nat) (t : List EditableNode) (i : Nat),
    getAtP (setAtP v t i q) i q = (getAtP t i q).map (fun n => withValue n v) := by
  intro q
  induction q with
  | nil =>
    intro t i
    simp only [setAtP, getAtP]
    rw [modifyIdx_get?_same]
  | cons j q' ih =>
    intro t i
    simp only [setAtP]
    cases hg : t.get? i with
    | none =>
      simp only [getAtP, hg]
      rfl
    | some n =>
      obtain ⟨ni, np, nnm, nv, na, nt, nc⟩ := n
      simp only [getAtP]
      rw [modifyIdx_get?_same, hg]
      exact ih nc j

theorem getAtP_setAtP_frame (v : String) :
    ∀ (q : List Nat) (t : List EditableNode) (i i' : Nat) (q' : List Nat),
    (i, q) ≠ (i', q') →
    (getAtP (setAtP v t i q) i' q').map localOf = (getAtP t i' q').map localOf := by
  intro q
  induction q with
  | nil =>
    intro t i i' q' hne
    by_cases hii : i = i'
    · subst hii
      cases q' with
      | nil => exact absurd rfl hne
      | cons j q2 =>
        simp only [setAtP, getAtP]
        rw [modifyIdx_get?_same]
        cases hg : t.get? i with
        | none => simp
        | some n => simp [children_withValue]
    · rw [show setAtP v t i [] = modifyIdx (fun n => withValue n v) t i from rfl]
      rw [getAtP_modifyIdx_other _ t i i' q' hii]
  | cons j q2 ih =>
    intro t i i' q' hne
    simp only [setAtP]
    cases hg : t.get? i with
    | none => rfl
    | some n =>
      obtain ⟨ni, np, nnm, nv, na, nt, nc⟩ := n
      by_cases hii : i = i'
      · subst hii
        cases q' with
        | nil =>
          simp only [getAtP]
          rw [modifyIdx_get?_same, hg]
          simp [localOf, withChildren]
        | cons j2 q3 =>
          have hq : (j, q2) ≠ (j2, q3) := by
            intro hc
            simp only [Prod.mk.injEq] at hc
            exact hne (by simp [hc.1, hc.2])
          simp only [getAtP]
          rw [modifyIdx_get?_same, hg]
          exact ih nc j j2 q3 hq
      · rw [getAtP_modifyIdx_other _ t i i' q' hii]

theorem chooseTarget (kopt : Option Nat) (first : EditableNode) (others : List EditableNode) :
    ∃ c tgtW, c < (first :: others).length ∧
      (first :: others).get? c = some tgtW ∧
      (match kopt with
       | some k => if 1 ≤ k then (if k - 1 < (first :: others).length then k - 1 else 0) else 0
       | none => 0) = c ∧
      (match kopt with
       | some k => if 1 ≤ k then ((first :: others).get? (k - 1)).getD first else first
       | none => first) = tgtW := by
  cases kopt with
  | none => exact ⟨0, first, by simp, by simp, rfl, rfl⟩
  | some k =>
    by_cases hk1 : 1 ≤ k
    · by_cases hkl : k - 1 < (first :: others).length
      · cases hg : (first :: others).get? (k - 1) with
        | none =>
          have := List.get?_eq_none.mp hg
          omega
        | some t =>
          refine ⟨k - 1, t, hkl, hg, ?_, ?_⟩
          · show (if 1 ≤ k then (if k - 1 < (first :: others).length then k - 1 else 0)
              else 0) = k - 1
            rw [if_pos hk1, if_pos hkl]
          · show (if 1 ≤ k then ((first :: others).get? (k - 1)).getD first
              else first) = t
            rw [if_pos hk1, hg]
            rfl
      · have hnone : (first :: others).get? (k - 1) = none :=
          List.get?_eq_none.mpr (by omega)
        refine ⟨0, first, by simp, by simp, ?_, ?_⟩
        · show (if 1 ≤ k then (if k - 1 < (first :: others).length then k - 1 else 0)
            else 0) = 0
          rw [if_pos hk1, if_neg hkl]
        · show (if 1 ≤ k then ((first :: others).get? (k - 1)).getD first
            else first) = first
          rw [if_pos hk1, hnone]
          rfl
    · refine ⟨0, first, by simp, by simp, ?_, ?_⟩
      · show (if 1 ≤ k then (if k - 1 < (first :: others).length then k - 1 else 0)
          else 0) = 0
        rw [if_neg hk1]
      · show (if 1 ≤ k then ((first :: others).get? (k - 1)).getD first
          else first) = first
        rw [if_neg hk1]

theorem idxOfNth_spec (p : EditableNode → Bool) :
    ∀ (l : List EditableNode) (c : Nat), c < (l.filter p).length →
    ∃ i, idxOfNth p l c = some i ∧ l.get? i = (l.filter p).get? c := by
  intro l
  induction l with
  | nil => intro c h; simp at h
  | cons x rest ih =>
    intro c h
    cases hp : p x with
    | true =>
      cases c with
      | zero =>
        refine ⟨0, ?_, ?_⟩
        · simp [idxOfNth, hp]
        · simp [List.filter_cons, hp]
      | succ c' =>
        have hlen : c' < (rest.filter p).length := by
          simp only [List.filter_cons, hp, if_true, List.length_cons] at h
          omega
        obtain ⟨i', h1, h2⟩ := ih c' hlen
        refine ⟨i' + 1, ?_, ?_⟩
        · simp [idxOfNth, hp, h1]
        · simp only [List.filter_cons, hp, if_true, List.get?_cons_succ]
          exact h2
    | false =>
      have hlen : c < (rest.filter p).length := by
        simp only [List.filter_cons, hp] at h
        simpa using h
      obtain ⟨i', h1, h2⟩ := ih c hlen
      refine ⟨i' + 1, ?_, ?_⟩
      · simp [idxOfNth, hp, h1]
      · simp only [List.filter_cons, hp, List.get?_cons_succ]
        simpa using h2

theorem walkPos_coh : ∀ (segs : List String) (ns : List EditableNode),
    (walkPos segs ns = none → walk segs ns = none) ∧
    (∀ i q, walkPos segs ns = some (i, q) →
      ∃ m, walk segs ns = some m ∧ getAtP ns i q = some m) := by
  intro segs
  induction segs with
  | nil =>
    intro ns
    constructor
    · intro _; rfl
    · intro i q h; simp [walkPos] at h
  | cons seg rest ih =>
    intro ns
    cases hf : ns.filter (fun n => EditableNode.name n = (parsePathSegment seg).1) with
    | nil =>
      have hw : walk (seg :: rest) ns = none := by
        conv_lhs => rw [walk]
        simp only [hf]
      have hwp : walkPos (seg :: rest) ns = none := by
        conv_lhs => rw [walkPos]
        simp only [hf]
      constructor
      · intro _; exact hw
      · intro i q h; rw [hwp] at h; cases h
    | cons first others =>
      obtain ⟨c, tgtW, hclen, hgetc, hceq, htw⟩ :=
        chooseTarget (parsePathSegment seg).2 first others
      have hcfl : c < (ns.filter (fun n => EditableNode.name n = (parsePathSegment seg).1)).length := by
        rw [hf]; exact hclen
      obtain ⟨i0, hidx, hgi⟩ := idxOfNth_spec _ ns c hcfl
      have hgi' : ns.get? i0 = some tgtW := by
        rw [hgi, hf]; exact hgetc
      have hwalk : walk (seg :: rest) ns =
          (if rest.isEmpty then some tgtW else walk rest (EditableNode.children tgtW)) := by
        conv_lhs => rw [walk]
        simp only [hf, htw]
      have hwalkPos : walkPos (seg :: rest) ns =
          (if rest.isEmpty then some (i0, ([] : List Nat))
           else
             match walkPos rest (EditableNode.children tgtW) with
             | some pos => some (i0, pos.1 :: pos.2)
             | none => none) := by
        conv_lhs => rw [walkPos]
        simp only [hf, hceq, hidx, hgi']
      cases rest with
      | nil =>
        constructor
        · intro h; rw [hwalkPos] at h; simp at h
        · intro i q h
          rw [hwalkPos] at h
          simp only [List.isEmpty_nil, if_true] at h
          rw [Option.some.injEq, Prod.mk.injEq] at h
          obtain ⟨hi, hq⟩ := h
          subst hi; subst hq
          refine ⟨tgtW, ?_, ?_⟩
          · rw [hwalk]; simp
          · exact hgi'
      | cons r rs =>
        have hie : (r :: rs).isEmpty = false := rfl
        constructor
        · intro h
          rw [hwalkPos] at h
          rw [hwalk]
          simp only [hie, Bool.false_eq_true, if_false] at h ⊢
          cases hsub : walkPos (r :: rs) (EditableNode.children tgtW) with
          | some pos => rw [hsub] at h; cases h
          | none => exact (ih (EditableNode.children tgtW)).1 hsub
        · intro i q h
          rw [hwalkPos] at h
          simp only [hie, Bool.false_eq_true, if_false] at h
          cases hsub : walkPos (r :: rs) (EditableNode.children tgtW) with
          | none => rw [hsub] at h; cases h
          | some pos =>
            rw [hsub] at h
            rw [Option.some.injEq, Prod.mk.injEq] at h
            obtain ⟨hi, hq⟩ := h
            subst hi; subst hq
            obtain ⟨m, hm1, hm2⟩ :=
              (ih (EditableNode.children tgtW)).2 pos.1 pos.2 (by rw [hsub])
            refine ⟨m, ?_, ?_⟩
            · rw [hwalk]
              simp only [hie, Bool.false_eq_true, if_false]
              exact hm1
            · simp only [getAtP, hgi']
              exact hm2

theorem preFind_coh (n : Nat) : ∀ (ns : List EditableNode), sizeOf ns ≤ n →
    ∀ (s : String),
    ((prePassPos ns s = none → prePass ns s = none) ∧
     (∀ i q, prePassPos ns s = some (i, q) →
       ∃ found, prePass ns s = some found ∧ getAtP ns i q = some found)) ∧
    ((findNodePos ns s = none → findNodeByParameterPath ns s = none) ∧
     (∀ i q, findNodePos ns s = some (i, q) →
       ∃ found, findNodeByParameterPath ns s = some found ∧
         getAtP ns i q = some found)) := by
  induction n with
  | zero =>
    intro ns h s
    exfalso
    cases ns with
    | nil => simp at h
    | cons a b => simp only [List.cons.sizeOf_spec] at h; omega
  | succ n ih =>
    intro ns h s
    have hA : (prePassPos ns s = none → prePass ns s = none) ∧
        (∀ i q, prePassPos ns s = some (i, q) →
          ∃ found, prePass ns s = some found ∧ getAtP ns i q = some found) := by
      cases ns with
      | nil => constructor <;> simp [prePassPos, prePass]
      | cons hd rest =>
        obtain ⟨i0, p0, nm0, v0, a0, t0, c0⟩ := hd
        have hsz : sizeOf c0 ≤ n ∧ sizeOf rest ≤ n := by
          simp only [List.cons.sizeOf_spec, EditableNode.mk.sizeOf_spec] at h
          constructor <;> omega
        by_cases his : i0 = trimStr s
        · constructor
          · intro hcontra
            simp [prePassPos, his] at hcontra
          · intro i q hpos
            simp only [prePassPos, if_pos his] at hpos
            rw [Option.some.injEq, Prod.mk.injEq] at hpos
            obtain ⟨hi, hq⟩ := hpos
            subst hi; subst hq
            refine ⟨EditableNode.mk i0 p0 nm0 v0 a0 t0 c0, ?_, ?_⟩
            · simp [prePass, his]
            · simp [getAtP]
        · have hccoh := (ih c0 hsz.1 s).2
          have hrcoh := (ih rest hsz.2 s).1
          cases hcp : findNodePos c0 s with
          | some cpos =>
            obtain ⟨found, hf1, hf2⟩ := hccoh.2 cpos.1 cpos.2 (by rw [hcp])
            constructor
            · intro hcontra
              simp [prePassPos, his, hcp] at hcontra
            · intro i q hpos
              simp only [prePassPos, if_neg his, hcp] at hpos
              rw [Option.some.injEq, Prod.mk.injEq] at hpos
              obtain ⟨hi, hq⟩ := hpos
              subst hi; subst hq
              refine ⟨found, ?_, ?_⟩
              · simp only [prePass, if_neg his]
                rw [hf1]
              · simp only [getAtP, List.get?_cons_zero]
                simpa [EditableNode.children] using hf2
          | none =>
            have hcf : findNodeByParameterPath c0 s = none := hccoh.1 (by rw [hcp])
            cases hrp : prePassPos rest s with
            | some rpos =>
              obtain ⟨found, hf1, hf2⟩ := hrcoh.2 rpos.1 rpos.2 (by rw [hrp])
              constructor
              · intro hcontra
                simp [prePassPos, his, hcp, hrp] at hcontra
              · intro i q hpos
                simp only [prePassPos, if_neg his, hcp, hrp] at hpos
                rw [Option.some.injEq, Prod.mk.injEq] at hpos
                obtain ⟨hi, hq⟩ := hpos
                subst hi; subst hq
                refine ⟨found, ?_, ?_⟩
                · simp only [prePass, if_neg his]
                  rw [hcf, hf1]
                · rw [getAtP_cons_succ]
                  exact hf2
            | none =>
              have hrf : prePass rest s = none := hrcoh.1 (by rw [hrp])
              constructor
              · intro _
                simp only [prePass, if_neg his]
                rw [hcf, hrf]
              · intro i q hpos
                simp [prePassPos, his, hcp, hrp] at hpos
    refine ⟨hA, ?_⟩
    by_cases hnz : normalizePath s = ""
    · constructor
      · intro _; simp [findNodeByParameterPath, hnz]
      · intro i q hq; simp [findNodePos, hnz] at hq
    · cases hip : prePassPos ns s with
      | some pos =>
        obtain ⟨found, hf1, hf2⟩ := hA.2 pos.1 pos.2 (by rw [hip])
        constructor
        · intro hq
          simp only [findNodePos, if_neg hnz, hip] at hq
          exact Option.noConfusion hq
        · intro i q hq
          simp only [findNodePos, if_neg hnz, hip] at hq
          rw [Option.some.injEq] at hq
          subst hq
          refine ⟨found, ?_, hf2⟩
          simp only [findNodeByParameterPath, if_neg hnz]
          rw [hf1]
      | none =>
        have hfid : prePass ns s = none := hA.1 (by rw [hip])
        by_cases hse : (splitSegs (normalizePath s)).isEmpty = true
        · constructor
          · intro _
            simp only [findNodeByParameterPath, if_neg hnz]
            rw [hfid]
            simp only [hse, if_true]
          · intro i q hq
            simp only [findNodePos, if_neg hnz, hip, hse, if_true] at hq
            exact Option.noConfusion hq
        · have hw := walkPos_coh (splitSegs (normalizePath s)) ns
          constructor
          · intro hq
            simp only [findNodePos, if_neg hnz, hip, hse, Bool.false_eq_true, if_false] at hq
            simp only [findNodeByParameterPath, if_neg hnz]
            rw [hfid]
            simp only [hse, Bool.false_eq_true, if_false]
            exact hw.1 hq
          · intro i q hq
            simp only [findNodePos, if_neg hnz, hip, hse, Bool.false_eq_true, if_false] at hq
            obtain ⟨m, hm1, hm2⟩ := hw.2 i q hq
            refine ⟨m, ?_, hm2⟩
            simp only [findNodeByParameterPath, if_neg hnz]
            rw [hfid]
            simp only [hse, Bool.false_eq_true, if_false]
            exact hm1

theorem findNodePos_coh (ns : List EditableNode) (p : String) :
    (findNodePos ns p = none → findNodeByParameterPath ns p = none) ∧
    (∀ i q, findNodePos ns p = some (i, q) →
      ∃ found, findNodeByParameterPath ns p = some found ∧
        getAtP ns i q = some found) :=
  (preFind_coh (sizeOf ns) ns (le_refl _) p).2

/-- C10: if `setNodeValueByPath` finds a matching node it changes exactly that
node's `value` field — the node keeps its other fields (`withValue`), every
other position keeps its non-children data (`localOf`), and the tree shape is
unchanged — and returns `true`; if no node matches it returns `false` with the
tree untouched. -/
theorem c10_set_value_frame (nodes : List EditableNode) (pathStr v : String) :
    (findNodeByParameterPath nodes pathStr = none →
      setNodeValueByPath nodes pathStr v = (nodes, false)) ∧
    (∀ n, findNodeByParameterPath nodes pathStr = some n →
      (setNodeValueByPath nodes pathStr v).2 = true ∧
      ∃ pos : Nat × List Nat,
        getAtP nodes pos.1 pos.2 = some n ∧
        (setNodeValueByPath nodes pathStr v).1 = setAtP v nodes pos.1 pos.2 ∧
        getAtP (setAtP v nodes pos.1 pos.2) pos.1 pos.2 = some (withValue n v) ∧
        ∀ (i' : Nat) (q' : List Nat), (i', q') ≠ (pos.1, pos.2) →
          (getAtP (setAtP v nodes pos.1 pos.2) i' q').map localOf =
            (getAtP nodes i' q').map localOf) := by
  have hcoh := findNodePos_coh nodes pathStr
  cases hnp : findNodePos nodes pathStr with
  | none =>
    have hn := hcoh.1 (by rw [hnp])
    constructor
    · intro _
      simp [setNodeValueByPath, hnp]
    · intro n hfind
      rw [hn] at hfind
      cases hfind
  | some pos =>
    obtain ⟨found, hf1, hf2⟩ := hcoh.2 pos.1 pos.2 (by rw [hnp])
    constructor
    · intro hnone
      rw [hf1] at hnone
      cases hnone
    · intro n hfind
      rw [hf1, Option.some.injEq] at hfind
      subst hfind
      constructor
      · simp [setNodeValueByPath, hnp]
      · refine ⟨pos, hf2, ?_, ?_, ?_⟩
        · simp [setNodeValueByPath, hnp]
        · rw [getAtP_setAtP_same v pos.2 nodes pos.1, hf2]
          rfl
        · intro i' q' hne
          exact getAtP_setAtP_frame v pos.2 nodes pos.1 i' q'
            (fun hc => hne (by rw [← hc]))

/-- Witness for C10: updating the value at path `a` in a one-node tree
succeeds. -/
theorem c10_set_value_frame_witness :
    (setNodeValueByPath
      [EditableNode.mk ("a[1]") ("a[1]") ("a") ("old") [] true []] ("a") ("new")).2 = true := by
  have hfind : findNodeByParameterPath
      [EditableNode.mk ("a[1]") ("a[1]") ("a") ("old") [] true []] ("a") =
      some (EditableNode.mk ("a[1]") ("a[1]") ("a") ("old") [] true []) := by
    simp [findNodeByParameterPath, prePass, walk, EditableNode.name,
      show trimStr ("a") = ("a") from by decide,
      show normalizePath ("a") = ("a") from by decide,
      show splitSegs ("a") = [("a")] from by decide,
      show parsePathSegment ("a") = (("a"), none) from by decide]
  exact ((c10_set_value_frame
    [EditableNode.mk ("a[1]") ("a[1]") ("a") ("old") [] true []] ("a") ("new")).2
    (EditableNode.mk ("a[1]") ("a[1]") ("a") ("old") [] true []) hfind).1

/-- Modelled from the spec: the change kinds of a DiffRecord (§3); the diff
worker `src/workers/xmlDiffWorker.ts` is not part of the repository snapshot,
only its consumers are. -/
inductive Change where
  | added
  | removed
  | changed
deriving DecidableEq

/-- Modelled from the spec: one reported difference (§3 DiffRecord). -/
structure DiffRecord where
  path : String
  change : Change
  leftValue : Option String
  rightValue : Option String
deriving DecidableEq

/-- Modelled from the spec: per-kind counts of emitted records (§3 Stats). -/
structure Stats where
  added : Nat
  removed : Nat
  changed : Nat
deriving DecidableEq

/-- First-occurrence deduplication of a name list (used to iterate the
name-groups of the aligner and the keys of an attribute record). -/
def dedupF : List String → List String
  | [] => []
  | x :: xs => x :: (dedupF xs).filter (fun y => y ≠ x)

/-- Lookup in a string-keyed record of attribute values. -/
def lookupStr : List (String × String) → String → Option String
  | [], _ => none
  | (k, v) :: rest, key => if k = key then some v else lookupStr rest key

/-- Modelled from the spec: merged, trimmed text content of an element (§3
`#text`: text and CData children merged left to right, then trimmed) — the
same normalization `buildEditableTree` performs. -/
def mergedText (n : XNode) : String :=
  trimStr (joinStrs (((childrenOf n).filter isTextLike).map textOf))

/-- Element children of an element node, the sibling lists the aligner
recurses into. -/
def childElems (n : XNode) : List XNode :=
  (childrenOf n).filter isElem

/-- Modelled from the spec: §4.4 — a `changed` record at the `#text` address
exactly when the trimmed merged texts differ. -/
def textDiffs (path : String) (l r : XNode) : List DiffRecord :=
  if mergedText l = mergedText r then []
  else [⟨path ++ ".#text", Change.changed, some (mergedText l), some (mergedText r)⟩]

/-- Modelled from the spec: §4.4 — attribute records compared key by key:
right-only keys are `added` at `path.@key`, left-only `removed`, differing
values `changed`. -/
def attrDiffs (path : String) (la ra : List (String × String)) : List DiffRecord :=
  ((dedupF (la.map Prod.fst)).map (fun k =>
    match lookupStr la k, lookupStr ra k with
    | some lv, some rv =>
      if lv = rv then [] else [⟨path ++ ".@" ++ k, Change.changed, some lv, some rv⟩]
    | some lv, none => [⟨path ++ ".@" ++ k, Change.removed, some lv, none⟩]
    | none, _ => [])).flatten
  ++ ((dedupF (ra.map Prod.fst)).map (fun k =>
    match lookupStr la k, lookupStr ra k with
    | none, some rv => [⟨path ++ ".@" ++ k, Change.added, none, some rv⟩]
    | _, _ => [])).flatten

/-- Modelled from the spec: §4.3 — one unit of alignment output: a matched
pair, a left-only node (to be reported removed), or a right-only node (to be
reported added), each carrying its canonical path. -/
inductive DTask where
  | matched (path : String) (l r : XNode)
  | leftOnly (path : String) (l : XNode)
  | rightOnly (path : String) (r : XNode)

/-- Executable size of a node list (the auto-derived `sizeOf` of the nested
inductive has no executable code). -/
def xListSize : List XNode → Nat
  | [] => 0
  | .text _ :: rest => 1 + xListSize rest
  | .cdata _ :: rest => 1 + xListSize rest
  | .element _ _ es :: rest => 1 + xListSize es + xListSize rest

/-- Executable size of a single node. -/
def xSize : XNode → Nat
  | .text _ => 1
  | .cdata _ => 1
  | .element _ _ es => 1 + xListSize es

/-- Weight of an alignment task: the sizes of the nodes it carries
(termination measure of the classifier). -/
def taskWeight : DTask → Nat
  | .matched _ l r => xSize l + xSize r
  | .leftOnly _ l => xSize l
  | .rightOnly _ r => xSize r

/-- Total weight of a task list. -/
def tasksWeight (ts : List DTask) : Nat := (ts.map taskWeight).sum

/-- Modelled from the spec: trailing one-sided occurrences of a name-group,
emitted left-to-right with increasing occurrence index. -/
def emitRest (pre nm : String) (isLeft : Bool) : List XNode → Nat → List DTask
  | [], _ => []
  | x :: xs, k =>
    (if isLeft then DTask.leftOnly (mkChildPath pre nm k) x
     else DTask.rightOnly (mkChildPath pre nm k) x) :: emitRest pre nm isLeft xs (k + 1)

/-- Modelled from the spec: §4.3 — within a name-group, pair the i-th left
occurrence with the i-th right occurrence; occurrences beyond the other
side's length become left-only/right-only. -/
def groupTasks (pre nm : String) : List XNode → List XNode → Nat → List DTask
  | [], rg, k => emitRest pre nm false rg k
  | l :: lg, [], k => DTask.leftOnly (mkChildPath pre nm k) l :: groupTasks pre nm lg [] (k + 1)
  | l :: lg, r :: rg, k =>
    DTask.matched (mkChildPath pre nm k) l r :: groupTasks pre nm lg rg (k + 1)

/-- Modelled from the spec: §4.3 — group siblings on each side by name
preserving order (first-occurrence order of the combined name list) and align
each name-group positionally; paths reuse the canonicalizer's
`prefix.Name[k]` template. -/
def alignTasks (ls rs : List XNode) (pre : String) : List DTask :=
  ((dedupF (ls.map elName ++ rs.map elName)).map (fun nm =>
    groupTasks pre nm (ls.filter (fun x => elName x = nm))
      (rs.filter (fun x => elName x = nm)) 1)).flatten

/-- Modelled from the spec: §4.4 — the single `removed` record representing a
left-only subtree. -/
def mkRemoved (path : String) (l : XNode) : DiffRecord :=
  ⟨path, Change.removed, some (mergedText l), none⟩

/-- Modelled from the spec: §4.4 — the single `added` record representing a
right-only subtree. -/
def mkAdded (path : String) (r : XNode) : DiffRecord :=
  ⟨path, Change.added, none, some (mergedText r)⟩

theorem one_le_xSize (x : XNode) : 1 ≤ xSize x := by
  cases x <;> simp [xSize]

theorem xListSize_cons (x : XNode) (t : List XNode) :
    xListSize (x :: t) = xSize x + xListSize t := by
  cases x <;> simp [xListSize, xSize] <;> omega

theorem xListSize_filter_le (p : XNode → Bool) :
    ∀ ls, xListSize (ls.filter p) ≤ xListSize ls := by
  intro ls
  induction ls with
  | nil => simp [xListSize]
  | cons x t ih =>
    cases hp : p x with
    | true =>
      rw [List.filter_cons, if_pos hp, xListSize_cons, xListSize_cons]
      omega
    | false =>
      rw [List.filter_cons]
      simp only [hp, Bool.false_eq_true, if_false]
      rw [xListSize_cons]
      omega

theorem xListSize_childElems_lt (x : XNode) : xListSize (childElems x) < xSize x := by
  cases x with
  | element nm a es =>
    have h1 := xListSize_filter_le isElem es
    simp only [childElems, childrenOf, xSize]
    omega
  | text s => simp [childElems, childrenOf, xListSize, xSize]
  | cdata s => simp [childElems, childrenOf, xListSize, xSize]

theorem tasksWeight_cons (t : DTask) (ts : List DTask) :
    tasksWeight (t :: ts) = taskWeight t + tasksWeight ts := by
  simp [tasksWeight]

theorem tasksWeight_append (a b : List DTask) :
    tasksWeight (a ++ b) = tasksWeight a + tasksWeight b := by
  simp [tasksWeight]

theorem tw_emitRest (pre nm : String) (b : Bool) :
    ∀ (xs : List XNode) (k : Nat), tasksWeight (emitRest pre nm b xs k) = xListSize xs := by
  intro xs
  induction xs with
  | nil => intro k; simp [emitRest, tasksWeight, xListSize]
  | cons x t ih =>
    intro k
    cases b <;>
      simp [emitRest, tasksWeight_cons, taskWeight, xListSize_cons, ih]

theorem tw_groupTasks (pre nm : String) :
    ∀ (lg rg : List XNode) (k : Nat),
    tasksWeight (groupTasks pre nm lg rg k) = xListSize lg + xListSize rg := by
  intro lg
  induction lg with
  | nil =>
    intro rg k
    simp [groupTasks, tw_emitRest, xListSize]
  | cons l lg ih =>
    intro rg k
    cases rg with
    | nil =>
      simp only [groupTasks, tasksWeight_cons, taskWeight, xListSize_cons, ih, xListSize]
      omega
    | cons r rg =>
      simp only [groupTasks, tasksWeight_cons, taskWeight, xListSize_cons, ih]
      omega

theorem sum_map_zero_nat :
    ∀ (names : List String), (names.map (fun _ => (0 : Nat))).sum = 0 := by
  intro names
  induction names with
  | nil => rfl
  | cons x xs ih => simp [ih]

theorem sum_map_add_nat (f g : String → Nat) :
    ∀ (l : List String), (l.map (fun x => f x + g x)).sum = (l.map f).sum + (l.map g).sum := by
  intro l
  induction l with
  | nil => rfl
  | cons x xs ih =>
    simp only [List.map_cons, List.sum_cons, ih]
    omega

theorem sum_map_if_zero (a : String) (c : Nat) :
    ∀ (names : List String), a ∉ names →
    (names.map (fun nm => if a = nm then c else 0)).sum = 0 := by
  intro names
  induction names with
  | nil => intro _; rfl
  | cons y ys ih =>
    intro hmem
    have hya : a ≠ y := fun hc => hmem (by rw [hc]; exact List.mem_cons_self y ys)
    simp only [List.map_cons, List.sum_cons, if_neg hya]
    rw [ih (fun hc => hmem (List.mem_cons_of_mem y hc))]

theorem sum_map_if_le (a : String) (c : Nat) :
    ∀ (names : List String), names.Nodup →
    (names.map (fun nm => if a = nm then c else 0)).sum ≤ c := by
  intro names
  induction names with
  | nil => intro _; simp
  | cons y ys ih =>
    intro hnd
    obtain ⟨hy, hys⟩ := List.nodup_cons.mp hnd
    by_cases hay : a = y
    · subst hay
      simp only [List.map_cons, List.sum_cons, if_pos rfl]
      rw [sum_map_if_zero a c ys hy]
      simp
    · simp only [List.map_cons, List.sum_cons, if_neg hay]
      simpa using ih hys

theorem dedupF_nodup : ∀ (l : List String), (dedupF l).Nodup := by
  intro l
  induction l with
  | nil => exact List.nodup_nil
  | cons x xs ih =>
    rw [dedupF]
    refine List.nodup_cons.mpr ⟨?_, ?_⟩
    · intro hmem
      have := List.of_mem_filter hmem
      simp at this
    · exact List.Nodup.filter _ ih

theorem mem_dedupF : ∀ (l : List String) (a : String), a ∈ dedupF l ↔ a ∈ l := by
  intro l
  induction l with
  | nil => intro a; simp [dedupF]
  | cons x xs ih =>
    intro a
    rw [dedupF]
    constructor
    · intro h
      rcases List.mem_cons.mp h with h | h
      · exact h ▸ List.mem_cons_self x xs
      · exact List.mem_cons_of_mem x ((ih a).mp (List.mem_of_mem_filter h))
    · intro h
      rcases List.mem_cons.mp h with h | h
      · exact h ▸ List.mem_cons_self _ _
      · by_cases hax : a = x
        · exact hax ▸ List.mem_cons_self _ _
        · exact List.mem_cons_of_mem _ (List.mem_filter.mpr ⟨(ih a).mpr h, by simp [hax]⟩)

theorem sum_filter_weight_le (names : List String) (hnd : names.Nodup) :
    ∀ (ls : List XNode),
    (names.map (fun nm => xListSize (ls.filter (fun x => elName x = nm)))).sum ≤
      xListSize ls := by
  intro ls
  induction ls with
  | nil =>
    have heq : (names.map (fun nm => xListSize (([] : List XNode).filter
        (fun x => elName x = nm)))).sum = (names.map (fun _ => (0 : Nat))).sum := by
      congr 1
      apply List.map_congr_left
      intro nm _
      simp [xListSize]
    rw [heq, sum_map_zero_nat]
    simp [xListSize]
  | cons x t ih =>
    have hsplit : (names.map (fun nm => xListSize ((x :: t).filter
        (fun y => elName y = nm)))).sum =
        (names.map (fun nm => (if elName x = nm then xSize x else 0) +
          xListSize (t.filter (fun y => elName y = nm)))).sum := by
      congr 1
      apply List.map_congr_left
      intro nm _
      by_cases hx : elName x = nm
      · simp [List.filter_cons, hx, xListSize_cons]
      · simp [List.filter_cons, hx]
    rw [hsplit, sum_map_add_nat]
    have h1 := sum_map_if_le (elName x) (xSize x) names hnd
    have h2 := ih
    rw [xListSize_cons]
    omega

theorem tw_flatten :
    ∀ (xss : List (List DTask)), tasksWeight xss.flatten = (xss.map tasksWeight).sum := by
  intro xss
  induction xss with
  | nil => rfl
  | cons xs rest ih => simp [List.flatten, tasksWeight_append, ih]

theorem tw_alignTasks_le (ls rs : List XNode) (pre : String) :
    tasksWeight (alignTasks ls rs pre) ≤ xListSize ls + xListSize rs := by
  unfold alignTasks
  rw [tw_flatten, List.map_map]
  have heq : ((dedupF (ls.map elName ++ rs.map elName)).map
      (tasksWeight ∘ fun nm => groupTasks pre nm (ls.filter (fun x => elName x = nm))
        (rs.filter (fun x => elName x = nm)) 1)).sum =
      ((dedupF (ls.map elName ++ rs.map elName)).map
        (fun nm => xListSize (ls.filter (fun x => elName x = nm)) +
          xListSize (rs.filter (fun x => elName x = nm)))).sum := by
    congr 1
    apply List.map_congr_left
    intro nm _
    simp [Function.comp, tw_groupTasks]
  rw [heq, sum_map_add_nat]
  have h1 := sum_filter_weight_le _ (dedupF_nodup (ls.map elName ++ rs.map elName)) ls
  have h2 := sum_filter_weight_le _ (dedupF_nodup (ls.map elName ++ rs.map elName)) rs
  omega

/-- Modelled from the spec: §4.4 — the classifier walks the alignment output:
left-only nodes yield one `removed` record, right-only nodes one `added`
record, matched pairs yield text and attribute comparisons and recurse into
the aligned element children. -/
def classify : List DTask → List DiffRecord
  | [] => []
  | .leftOnly p l :: ts => mkRemoved p l :: classify ts
  | .rightOnly p r :: ts => mkAdded p r :: classify ts
  | .matched p l r :: ts =>
    textDiffs p l r ++ attrDiffs p (attrsOf l) (attrsOf r)
      ++ classify (alignTasks (childElems l) (childElems r) p) ++ classify ts
termination_by ts => tasksWeight ts
decreasing_by
  · simp only [tasksWeight_cons, taskWeight]
    have := one_le_xSize l
    omega
  · simp only [tasksWeight_cons, taskWeight]
    have := one_le_xSize r
    omega
  · simp only [tasksWeight_cons, taskWeight]
    have h1 := tw_alignTasks_le (childElems l) (childElems r) p
    have h2 := xListSize_childElems_lt l
    have h3 := xListSize_childElems_lt r
    omega
  · simp only [tasksWeight_cons, taskWeight]
    have hl := one_le_xSize l
    have hr := one_le_xSize r
    omega

/-- Modelled from the spec: full diff of two parsed documents — align the
top-level element lists under the empty prefix and classify. -/
def diffDocs (ldoc rdoc : List XNode) : List DiffRecord :=
  classify (alignTasks (ldoc.filter isElem) (rdoc.filter isElem) "")

/-- Modelled from the spec: §3 Stats — one count per emitted record kind. -/
def statsOf (ds : List DiffRecord) : Stats :=
  ⟨(ds.filter (fun d => d.change = Change.added)).length,
   (ds.filter (fun d => d.change = Change.removed)).length,
   (ds.filter (fun d => d.change = Change.changed)).length⟩

theorem textDiffs_self (p : String) (l : XNode) : textDiffs p l l = [] := by
  simp [textDiffs]

theorem flatten_eq_nil_of_all {α : Type} :
    ∀ (xss : List (List α)), (∀ xs ∈ xss, xs = []) → xss.flatten = [] := by
  intro xss
  induction xss with
  | nil => intro _; rfl
  | cons xs rest ih =>
    intro h
    rw [List.flatten_cons, h xs (List.mem_cons_self _ _),
      ih (fun ys hys => h ys (List.mem_cons_of_mem _ hys))]
    rfl

theorem attrDiffs_self (p : String) (a : List (String × String)) : attrDiffs p a a = [] := by
  unfold attrDiffs
  rw [List.append_eq_nil]
  constructor
  · apply flatten_eq_nil_of_all
    intro xs hxs
    rw [List.mem_map] at hxs
    obtain ⟨k, _, rfl⟩ := hxs
    cases lookupStr a k with
    | none => rfl
    | some lv => simp
  · apply flatten_eq_nil_of_all
    intro xs hxs
    rw [List.mem_map] at hxs
    obtain ⟨k, _, rfl⟩ := hxs
    cases lookupStr a k with
    | none => rfl
    | some lv => rfl

theorem groupTasks_self_shape (pre nm : String) :
    ∀ (g : List XNode) (k : Nat) (t : DTask),
    t ∈ groupTasks pre nm g g k → ∃ p l, t = DTask.matched p l l := by
  intro g
  induction g with
  | nil => intro k t ht; simp [groupTasks, emitRest] at ht
  | cons x xs ih =>
    intro k t ht
    simp only [groupTasks] at ht
    rcases List.mem_cons.mp ht with h | h
    · exact ⟨_, _, h⟩
    · exact ih (k + 1) t h

theorem alignTasks_self_shape (ls : List XNode) (pre : String) :
    ∀ t ∈ alignTasks ls ls pre, ∃ p l, t = DTask.matched p l l := by
  intro t ht
  unfold alignTasks at ht
  rw [List.mem_flatten] at ht
  obtain ⟨xs, hxs, htxs⟩ := ht
  rw [List.mem_map] at hxs
  obtain ⟨nm, _, rfl⟩ := hxs
  exact groupTasks_self_shape pre nm _ 1 t htxs

theorem one_le_taskWeight (t : DTask) : 1 ≤ taskWeight t := by
  cases t with
  | matched p l r =>
    have := one_le_xSize l
    simp only [taskWeight]
    omega
  | leftOnly p l => exact one_le_xSize l
  | rightOnly p r => exact one_le_xSize r

theorem classify_self (n : Nat) : ∀ (ts : List DTask), tasksWeight ts ≤ n →
    (∀ t ∈ ts, ∃ p l, t = DTask.matched p l l) → classify ts = [] := by
  induction n with
  | zero =>
    intro ts h hsh
    cases ts with
    | nil => simp [classify]
    | cons t ts' =>
      exfalso
      have := one_le_taskWeight t
      rw [tasksWeight_cons] at h
      omega
  | succ n ih =>
    intro ts h hsh
    cases ts with
    | nil => simp [classify]
    | cons t ts' =>
      obtain ⟨p, l, rfl⟩ := hsh t (List.mem_cons_self _ _)
      rw [tasksWeight_cons] at h
      simp only [taskWeight] at h
      have hxl := one_le_xSize l
      have hchild : tasksWeight (alignTasks (childElems l) (childElems l) p) ≤ n := by
        have h1 := tw_alignTasks_le (childElems l) (childElems l) p
        have h2 := xListSize_childElems_lt l
        omega
      have htail : tasksWeight ts' ≤ n := by omega
      rw [show classify (DTask.matched p l l :: ts') =
          textDiffs p l l ++ attrDiffs p (attrsOf l) (attrsOf l)
            ++ classify (alignTasks (childElems l) (childElems l) p) ++ classify ts' from by
        simp [classify]]
      rw [textDiffs_self, attrDiffs_self]
      rw [ih _ hchild (alignTasks_self_shape (childElems l) p)]
      rw [ih ts' htail (fun u hu => hsh u (List.mem_cons_of_mem _ hu))]
      rfl

theorem diffDocs_self (d : List XNode) : diffDocs d d = [] := by
  unfold diffDocs
  exact classify_self (tasksWeight _) _ (le_refl _) (alignTasks_self_shape _ _)

/-- C3: diffing any document against itself yields an empty differences list
and stats equal to zero in every kind. -/
theorem c3_identity (d : List XNode) :
    diffDocs d d = [] ∧ statsOf (diffDocs d d) = ⟨0, 0, 0⟩ := by
  have h := diffDocs_self d
  exact ⟨h, by rw [h]; rfl⟩

theorem emitRest_get? (pre nm : String) (b : Bool) :
    ∀ (xs : List XNode) (k j : Nat),
    (emitRest pre nm b xs k).get? j = (xs.get? j).map (fun x =>
      if b then DTask.leftOnly (mkChildPath pre nm (k + j)) x
      else DTask.rightOnly (mkChildPath pre nm (k + j)) x) := by
  intro xs
  induction xs with
  | nil => intro k j; simp [emitRest]
  | cons x t ih =>
    intro k j
    cases j with
    | zero => simp [emitRest]
    | succ j =>
      simp only [emitRest, List.get?_cons_succ]
      rw [ih (k + 1) j]
      have harith : k + 1 + j = k + (j + 1) := by omega
      rw [harith]

theorem groupTasks_get? (pre nm : String) :
    ∀ (lg rg : List XNode) (k j : Nat),
    (groupTasks pre nm lg rg k).get? j =
      (match lg.get? j, rg.get? j with
       | some l, some r => some (DTask.matched (mkChildPath pre nm (k + j)) l r)
       | some l, none => some (DTask.leftOnly (mkChildPath pre nm (k + j)) l)
       | none, some r => some (DTask.rightOnly (mkChildPath pre nm (k + j)) r)
       | none, none => none) := by
  intro lg
  induction lg with
  | nil =>
    intro rg k j
    simp only [groupTasks, List.get?_nil]
    rw [emitRest_get?]
    cases rg.get? j with
    | none => rfl
    | some r => rfl
  | cons l lg ih =>
    intro rg k j
    cases rg with
    | nil =>
      cases j with
      | zero => simp [groupTasks]
      | succ j =>
        simp only [groupTasks, List.get?_cons_succ, List.get?_nil]
        rw [ih [] (k + 1) j]
        have harith : k + 1 + j = k + (j + 1) := by omega
        rw [harith]
        simp
    | cons r rg =>
      cases j with
      | zero => simp [groupTasks]
      | succ j =>
        simp only [groupTasks, List.get?_cons_succ]
        rw [ih rg (k + 1) j]
        have harith : k + 1 + j = k + (j + 1) := by omega
        rw [harith]

/-- C2: the aligner groups siblings by name and pairs the i-th left occurrence
with the i-th right occurrence at the shared canonical path `pre.nm[i+1]`;
a left occurrence beyond the right group's length becomes a left-only
(removed) task, a right occurrence beyond the left group's length becomes a
right-only (added) task — including every occurrence of a name present on one
side only. -/
theorem c2_positional_alignment (ls rs : List XNode) (pre nm : String) (i : Nat) :
    (∀ l r, (ls.filter (fun x => elName x = nm)).get? i = some l →
        (rs.filter (fun x => elName x = nm)).get? i = some r →
        DTask.matched (mkChildPath pre nm (i + 1)) l r ∈ alignTasks ls rs pre) ∧
    (∀ l, (ls.filter (fun x => elName x = nm)).get? i = some l →
        (rs.filter (fun x => elName x = nm)).get? i = none →
        DTask.leftOnly (mkChildPath pre nm (i + 1)) l ∈ alignTasks ls rs pre) ∧
    (∀ r, (ls.filter (fun x => elName x = nm)).get? i = none →
        (rs.filter (fun x => elName x = nm)).get? i = some r →
        DTask.rightOnly (mkChildPath pre nm (i + 1)) r ∈ alignTasks ls rs pre) := by
  have harith : 1 + i = i + 1 := by omega
  have hmem_group : ∀ t : DTask, t ∈ groupTasks pre nm
      (ls.filter (fun x => elName x = nm)) (rs.filter (fun x => elName x = nm)) 1 →
      nm ∈ dedupF (ls.map elName ++ rs.map elName) →
      t ∈ alignTasks ls rs pre := by
    intro t ht hnm
    unfold alignTasks
    rw [List.mem_flatten]
    exact ⟨_, List.mem_map_of_mem _ hnm, ht⟩
  have hnmL : ∀ l, (ls.filter (fun x => elName x = nm)).get? i = some l →
      nm ∈ dedupF (ls.map elName ++ rs.map elName) := by
    intro l hl
    rw [mem_dedupF]
    apply List.mem_append.mpr
    left
    have hlmem := List.get?_mem hl
    obtain ⟨hmem, hname⟩ := List.mem_filter.mp hlmem
    exact List.mem_map.mpr ⟨l, hmem, by simpa using hname⟩
  have hnmR : ∀ r, (rs.filter (fun x => elName x = nm)).get? i = some r →
      nm ∈ dedupF (ls.map elName ++ rs.map elName) := by
    intro r hr
    rw [mem_dedupF]
    apply List.mem_append.mpr
    right
    have hrmem := List.get?_mem hr
    obtain ⟨hmem, hname⟩ := List.mem_filter.mp hrmem
    exact List.mem_map.mpr ⟨r, hmem, by simpa using hname⟩
  refine ⟨?_, ?_, ?_⟩
  · intro l r hl hr
    apply hmem_group _ ?_ (hnmL l hl)
    apply List.get?_mem (n := i)
    rw [groupTasks_get?, hl, hr, harith]
  · intro l hl hr
    apply hmem_group _ ?_ (hnmL l hl)
    apply List.get?_mem (n := i)
    rw [groupTasks_get?, hl, hr, harith]
  · intro r hl hr
    apply hmem_group _ ?_ (hnmR r hr)
    apply List.get?_mem (n := i)
    rw [groupTasks_get?, hl, hr, harith]

/-- Witness for C2: aligning `<a/><a/>` against `<a/>` pairs the first `a`
and reports the second left `a` as a left-only (removed) task at `a[2]`. -/
theorem c2_positional_alignment_witness :
    DTask.leftOnly (mkChildPath "" ("a") 2) (XNode.element ("a") [] []) ∈
      alignTasks [XNode.element ("a") [] [], XNode.element ("a") [] []]
        [XNode.element ("a") [] []] "" :=
  (c2_positional_alignment
      [XNode.element ("a") [] [], XNode.element ("a") [] []]
      [XNode.element ("a") [] []] "" ("a") 1).2.1
    (XNode.element ("a") [] []) (by rfl) (by rfl)

/-- Shape constraint on a diff record tied to its change kind. -/
def shapeOk (d : DiffRecord) : Prop :=
  (d.change = Change.added → d.leftValue = none) ∧
  (d.change = Change.removed → d.rightValue = none) ∧
  (d.change = Change.changed → d.leftValue.isSome ∧ d.rightValue.isSome)

theorem shapeOk_textDiffs (p : String) (l r : XNode) :
    ∀ d ∈ textDiffs p l r, shapeOk d := by
  intro d hd
  unfold textDiffs at hd
  by_cases h : mergedText l = mergedText r
  · simp [h] at hd
  · rw [if_neg h, List.mem_singleton] at hd
    subst hd
    refine ⟨?_, ?_, ?_⟩ <;> intro hc <;> simp_all

theorem shapeOk_attrDiffs (p : String) (la ra : List (String × String)) :
    ∀ d ∈ attrDiffs p la ra, shapeOk d := by
  intro d hd
  unfold attrDiffs at hd
  rcases List.mem_append.mp hd with h | h
  · rw [List.mem_flatten] at h
    obtain ⟨xs, hxs, hdxs⟩ := h
    rw [List.mem_map] at hxs
    obtain ⟨k, _, rfl⟩ := hxs
    cases hla : lookupStr la k with
    | none => simp [hla] at hdxs
    | some lv =>
      cases hra : lookupStr ra k with
      | none =>
        simp only [hla, hra, List.mem_singleton] at hdxs
        subst hdxs
        refine ⟨?_, ?_, ?_⟩ <;> intro hc <;> simp_all
      | some rv =>
        simp only [hla, hra] at hdxs
        by_cases hv : lv = rv
        · simp [hv] at hdxs
        · rw [if_neg hv, List.mem_singleton] at hdxs
          subst hdxs
          refine ⟨?_, ?_, ?_⟩ <;> intro hc <;> simp_all
  · rw [List.mem_flatten] at h
    obtain ⟨xs, hxs, hdxs⟩ := h
    rw [List.mem_map] at hxs
    obtain ⟨k, _, rfl⟩ := hxs
    cases hla : lookupStr la k with
    | some lv => simp [hla] at hdxs
    | none =>
      cases hra : lookupStr ra k with
      | none => simp [hla, hra] at hdxs
      | some rv =>
        simp only [hla, hra, List.mem_singleton] at hdxs
        subst hdxs
        refine ⟨?_, ?_, ?_⟩ <;> intro hc <;> simp_all

theorem classify_shape (n : Nat) : ∀ (ts : List DTask), tasksWeight ts ≤ n →
    ∀ d ∈ classify ts, shapeOk d := by
  induction n with
  | zero =>
    intro ts h d hd
    cases ts with
    | nil => simp [classify] at hd
    | cons t ts' =>
      exfalso
      have := one_le_taskWeight t
      rw [tasksWeight_cons] at h
      omega
  | succ n ih =>
    intro ts h d hd
    cases ts with
    | nil => simp [classify] at hd
    | cons t ts' =>
      rw [tasksWeight_cons] at h
      have hwt := one_le_taskWeight t
      have htail : tasksWeight ts' ≤ n := by omega
      cases t with
      | leftOnly p l =>
        rw [show classify (DTask.leftOnly p l :: ts') = mkRemoved p l :: classify ts' from by
          simp [classify]] at hd
        rcases List.mem_cons.mp hd with hd | hd
        · subst hd
          refine ⟨?_, ?_, ?_⟩ <;> intro hc <;> simp_all [mkRemoved]
        · exact ih ts' htail d hd
      | rightOnly p r =>
        rw [show classify (DTask.rightOnly p r :: ts') = mkAdded p r :: classify ts' from by
          simp [classify]] at hd
        rcases List.mem_cons.mp hd with hd | hd
        · subst hd
          refine ⟨?_, ?_, ?_⟩ <;> intro hc <;> simp_all [mkAdded]
        · exact ih ts' htail d hd
      | matched p l r =>
        simp only [taskWeight] at h
        have hchild : tasksWeight (alignTasks (childElems l) (childElems r) p) ≤ n := by
          have h1 := tw_alignTasks_le (childElems l) (childElems r) p
          have h2 := xListSize_childElems_lt l
          have h3 := xListSize_childElems_lt r
          omega
        rw [show classify (DTask.matched p l r :: ts') =
            textDiffs p l r ++ attrDiffs p (attrsOf l) (attrsOf r)
              ++ classify (alignTasks (childElems l) (childElems r) p) ++ classify ts' from by
          simp [classify]] at hd
        rcases List.mem_append.mp hd with hd | hd
        · rcases List.mem_append.mp hd with hd | hd
          · rcases List.mem_append.mp hd with hd | hd
            · exact shapeOk_textDiffs p l r d hd
            · exact shapeOk_attrDiffs p (attrsOf l) (attrsOf r) d hd
          · exact ih _ hchild d hd
        · exact ih ts' htail d hd

/-- C6: every record emitted by the diff satisfies the shape invariant of its
change kind — `leftValue` absent for `added`, `rightValue` absent for
`removed`, and both present for `changed`. -/
theorem c6_record_shape (ldoc rdoc : List XNode) (d : DiffRecord)
    (hd : d ∈ diffDocs ldoc rdoc) :
    (d.change = Change.added → d.leftValue = none) ∧
    (d.change = Change.removed → d.rightValue = none) ∧
    (d.change = Change.changed → d.leftValue.isSome ∧ d.rightValue.isSome) :=
  classify_shape (tasksWeight _) _ (le_refl _) d hd

theorem diffDocs_text_example :
    diffDocs [XNode.element ("a") [] [XNode.text ("1")]]
      [XNode.element ("a") [] [XNode.text ("2")]] =
      [⟨("a[1].#text"), Change.changed, some ("1"), some ("2")⟩] := by
  unfold diffDocs
  rw [show alignTasks
      ([XNode.element ("a") [] [XNode.text ("1")]].filter isElem)
      ([XNode.element ("a") [] [XNode.text ("2")]].filter isElem) "" =
      [DTask.matched ("a[1]") (XNode.element ("a") [] [XNode.text ("1")])
        (XNode.element ("a") [] [XNode.text ("2")])] from rfl]
  rw [show classify [DTask.matched ("a[1]") (XNode.element ("a") [] [XNode.text ("1")])
      (XNode.element ("a") [] [XNode.text ("2")])] =
      textDiffs ("a[1]") (XNode.element ("a") [] [XNode.text ("1")])
          (XNode.element ("a") [] [XNode.text ("2")])
        ++ attrDiffs ("a[1]")
            (attrsOf (XNode.element ("a") [] [XNode.text ("1")]))
            (attrsOf (XNode.element ("a") [] [XNode.text ("2")]))
        ++ classify (alignTasks
            (childElems (XNode.element ("a") [] [XNode.text ("1")]))
            (childElems (XNode.element ("a") [] [XNode.text ("2")])) ("a[1]"))
        ++ classify [] from by simp [classify]]
  rw [show alignTasks
      (childElems (XNode.element ("a") [] [XNode.text ("1")]))
      (childElems (XNode.element ("a") [] [XNode.text ("2")])) ("a[1]") = [] from rfl]
  rw [show (classify [] : List DiffRecord) = [] from by simp [classify]]
  rfl

/-- Witness for C6: the single `changed` record produced by diffing
`<a>1</a>` against `<a>2</a>` satisfies the shape invariant. -/
theorem c6_record_shape_witness :
    ((⟨("a[1].#text"), Change.changed, some ("1"), some ("2")⟩ : DiffRecord).change =
        Change.added →
      (⟨("a[1].#text"), Change.changed, some ("1"), some ("2")⟩ : DiffRecord).leftValue =
        none) ∧
    ((⟨("a[1].#text"), Change.changed, some ("1"), some ("2")⟩ : DiffRecord).change =
        Change.removed →
      (⟨("a[1].#text"), Change.changed, some ("1"), some ("2")⟩ : DiffRecord).rightValue =
        none) ∧
    ((⟨("a[1].#text"), Change.changed, some ("1"), some ("2")⟩ : DiffRecord).change =
        Change.changed →
      (⟨("a[1].#text"), Change.changed, some ("1"), some ("2")⟩ : DiffRecord).leftValue.isSome ∧
      (⟨("a[1].#text"), Change.changed, some ("1"), some ("2")⟩ : DiffRecord).rightValue.isSome) :=
  c6_record_shape
    [XNode.element ("a") [] [XNode.text ("1")]]
    [XNode.element ("a") [] [XNode.text ("2")]]
    ⟨("a[1].#text"), Change.changed, some ("1"), some ("2")⟩
    (by rw [diffDocs_text_example]; exact List.mem_singleton.mpr rfl)

/-- C7: element text is compared after merging text and CData children left to
right and trimming outer whitespace: the `#text` comparison emits a record
(always a `changed` record carrying both trimmed values) exactly when the
trimmed merged texts differ, so `<a> 5 </a>` against `<a>5</a>` produces no
diff record. -/
theorem c7_text_normalization :
    (∀ (p : String) (l r : XNode), textDiffs p l r = [] ↔ mergedText l = mergedText r) ∧
    (∀ (p : String) (l r : XNode) (d : DiffRecord), d ∈ textDiffs p l r →
      d.change = Change.changed ∧ d.leftValue = some (mergedText l) ∧
      d.rightValue = some (mergedText r) ∧ mergedText l ≠ mergedText r) ∧
    diffDocs [XNode.element ("a") [] [XNode.text (" 5 ")]]
      [XNode.element ("a") [] [XNode.text ("5")]] = [] := by
  refine ⟨?_, ?_, ?_⟩
  · intro p l r
    unfold textDiffs
    by_cases h : mergedText l = mergedText r <;> simp [h]
  · intro p l r d hd
    unfold textDiffs at hd
    by_cases h : mergedText l = mergedText r
    · simp [h] at hd
    · rw [if_neg h, List.mem_singleton] at hd
      subst hd
      exact ⟨rfl, rfl, rfl, h⟩
  · unfold diffDocs
    rw [show alignTasks
        ([XNode.element ("a") [] [XNode.text (" 5 ")]].filter isElem)
        ([XNode.element ("a") [] [XNode.text ("5")]].filter isElem) "" =
        [DTask.matched ("a[1]") (XNode.element ("a") [] [XNode.text (" 5 ")])
          (XNode.element ("a") [] [XNode.text ("5")])] from rfl]
    rw [show classify [DTask.matched ("a[1]") (XNode.element ("a") [] [XNode.text (" 5 ")])
        (XNode.element ("a") [] [XNode.text ("5")])] =
        textDiffs ("a[1]") (XNode.element ("a") [] [XNode.text (" 5 ")])
            (XNode.element ("a") [] [XNode.text ("5")])
          ++ attrDiffs ("a[1]")
              (attrsOf (XNode.element ("a") [] [XNode.text (" 5 ")]))
              (attrsOf (XNode.element ("a") [] [XNode.text ("5")]))
          ++ classify (alignTasks
              (childElems (XNode.element ("a") [] [XNode.text (" 5 ")]))
              (childElems (XNode.element ("a") [] [XNode.text ("5")])) ("a[1]"))
          ++ classify [] from by simp [classify]]
    rw [show alignTasks
        (childElems (XNode.element ("a") [] [XNode.text (" 5 ")]))
        (childElems (XNode.element ("a") [] [XNode.text ("5")])) ("a[1]") = [] from rfl]
    rw [show (classify [] : List DiffRecord) = [] from by simp [classify]]
    rfl

/-- Witness for C7: the first conjunct instantiated at the whitespace example
and the concrete no-diff result. -/
theorem c7_text_normalization_witness :
    (textDiffs ("a[1]") (XNode.element ("a") [] [XNode.text (" 5 ")])
        (XNode.element ("a") [] [XNode.text ("5")]) = [] ↔
      mergedText (XNode.element ("a") [] [XNode.text (" 5 ")]) =
        mergedText (XNode.element ("a") [] [XNode.text ("5")])) :=
  c7_text_normalization.1 ("a[1]") (XNode.element ("a") [] [XNode.text (" 5 ")])
    (XNode.element ("a") [] [XNode.text ("5")])

/-- Modelled from the spec: token stream of the document parser (§4.1); the
parser lives in the absent worker module, so it is reconstructed here. -/
inductive Tok where
  | tOpen (name : String) (attrs : List (String × String)) (selfClose : Bool)
  | tClose (name : String)
  | tText (s : String)

/-- Modelled from the spec: attribute parsing inside a tag, `key="value"`
pairs separated by whitespace (fuel-indexed so the definition stays
executable in the kernel). -/
def parseAttrs : Nat → List Char → List (String × String)
  | 0, _ => []
  | fuel + 1, cs =>
    match cs.dropWhile isWS with
    | [] => []
    | c :: cs1 =>
      let key := (c :: cs1).takeWhile (fun ch => !(isWS ch) && ch ≠ '=' && ch ≠ '"')
      let rest1 := ((c :: cs1).drop key.length).dropWhile isWS
      match rest1 with
      | '=' :: rest2 =>
        match rest2.dropWhile isWS with
        | '"' :: rest3 =>
          let v := rest3.takeWhile (fun ch => ch ≠ '"')
          (⟨key⟩, ⟨v⟩) :: parseAttrs fuel ((rest3.drop v.length).drop 1)
        | other => parseAttrs fuel other
      | other => parseAttrs fuel other

/-- Modelled from the spec: §4.1 — tokenizer for the raw markup: tags, close
tags, self-closing tags, text runs; declarations (`<?…>`) and markup
declarations (`<!…>`) are skipped; a tag missing its closing bracket is a
well-formedness violation reported as a typed error. -/
def tokenize : Nat → List Char → Except String (List Tok)
  | 0, _ => Except.error ("tokenizer ran out of fuel")
  | _ + 1, [] => Except.ok []
  | fuel + 1, '<' :: rest =>
    match rest with
    | '/' :: rest2 =>
      let inside := rest2.takeWhile (fun c => c ≠ '>')
      match rest2.drop inside.length with
      | [] => Except.error ("Unclosed tag")
      | _ :: rest3 =>
        match tokenize fuel rest3 with
        | Except.ok toks => Except.ok (Tok.tClose (trimStr ⟨inside⟩) :: toks)
        | Except.error e => Except.error e
    | '?' :: rest2 =>
      let inside := rest2.takeWhile (fun c => c ≠ '>')
      match rest2.drop inside.length with
      | [] => Except.error ("Unclosed declaration")
      | _ :: rest3 => tokenize fuel rest3
    | '!' :: rest2 =>
      let inside := rest2.takeWhile (fun c => c ≠ '>')
      match rest2.drop inside.length with
      | [] => Except.error ("Unclosed markup declaration")
      | _ :: rest3 => tokenize fuel rest3
    | _ =>
      let inside := rest.takeWhile (fun c => c ≠ '>')
      match rest.drop inside.length with
      | [] => Except.error ("Unclosed tag")
      | _ :: rest3 =>
        let selfClose := inside.getLast? == some '/'
        let core := if selfClose then inside.dropLast else inside
        let nm := core.takeWhile (fun c => !(isWS c) && c ≠ '/')
        let attrs := parseAttrs (core.length + 1) (core.drop nm.length)
        match tokenize fuel rest3 with
        | Except.ok toks => Except.ok (Tok.tOpen ⟨nm⟩ attrs selfClose :: toks)
        | Except.error e => Except.error e
  | fuel + 1, c :: rest =>
    let chunk := (c :: rest).takeWhile (fun ch => ch ≠ '<')
    match tokenize fuel ((c :: rest).drop chunk.length) with
    | Except.ok toks => Except.ok (Tok.tText ⟨chunk⟩ :: toks)
    | Except.error e => Except.error e

/-- Modelled from the spec: §4.1 — stack-based tree construction from the
token stream; an unclosed, unexpected, or mismatched tag is a
well-formedness violation carrying a human-readable message. -/
def buildTree : List Tok → List (String × List (String × String) × List XNode) →
    List XNode → Except String (List XNode)
  | [], [], acc => Except.ok acc.reverse
  | [], (nm, _, _) :: _, _ => Except.error ("Unclosed tag: " ++ nm)
  | Tok.tText s :: rest, stack, acc =>
    match stack with
    | [] => buildTree rest [] (XNode.text s :: acc)
    | (nm, a, cs) :: st => buildTree rest ((nm, a, XNode.text s :: cs) :: st) acc
  | Tok.tOpen nm attrs true :: rest, stack, acc =>
    match stack with
    | [] => buildTree rest [] (XNode.element nm attrs [] :: acc)
    | (nm2, a, cs) :: st =>
      buildTree rest ((nm2, a, XNode.element nm attrs [] :: cs) :: st) acc
  | Tok.tOpen nm attrs false :: rest, stack, acc =>
    buildTree rest ((nm, attrs, []) :: stack) acc
  | Tok.tClose nm :: rest, stack, acc =>
    match stack with
    | [] => Except.error ("Unexpected closing tag: " ++ nm)
    | (nm2, a, cs) :: st =>
      if nm2 = nm then
        match st with
        | [] => buildTree rest [] (XNode.element nm2 a cs.reverse :: acc)
        | (nm3, a3, cs3) :: st2 =>
          buildTree rest ((nm3, a3, XNode.element nm2 a cs.reverse :: cs3) :: st2) acc
      else Except.error ("Mismatched closing tag: " ++ nm)

/-- Modelled from the spec: §4.1 Document Parser — tolerant of documents
without a declaration; every well-formedness violation yields a typed
`ParseError` result instead of an exception. -/
def parseDoc (raw : String) : Except String (List XNode) :=
  match tokenize (raw.data.length + 1) raw.data with
  | Except.error e => Except.error e
  | Except.ok toks => buildTree toks [] []

/-- Modelled from the spec: §4.5 — the three phases of one request. -/
inductive Phase where
  | left
  | right
  | diff
deriving DecidableEq

/-- Modelled from the spec: §6 — the message shapes of the boundary
protocol. -/
inductive Msg where
  | progress (phase : Phase) (percent : Nat) (message : Option String)
  | done (differences : List DiffRecord) (stats : Stats)
  | error (leftError rightError : Option String)

/-- Numeric order of the phases (left before right before diff). -/
def phaseIdx : Phase → Nat
  | .left => 0
  | .right => 1
  | .diff => 2

/-- Ordering between two messages: progress messages must be non-decreasing
in (phase, percent) lexicographic order; any pair involving a non-progress
message is unconstrained. -/
def progLE : Msg → Msg → Prop := fun m1 m2 =>
  match m1, m2 with
  | .progress p1 c1 _, .progress p2 c2 _ =>
    phaseIdx p1 < phaseIdx p2 ∨ (phaseIdx p1 = phaseIdx p2 ∧ c1 ≤ c2)
  | _, _ => True

/-- Terminal messages are `done` and `error`. -/
def isTerminal : Msg → Bool
  | .done _ _ => true
  | .error _ _ => true
  | .progress _ _ _ => false

/-- Modelled from the spec: §4.5 — chunked progress of the diff phase, one
update per processed top-level unit, percent in 0..100 and monotone. -/
def diffProgress (n : Nat) : List Msg :=
  (List.range (n + 1)).map (fun i => Msg.progress Phase.diff ((100 * i) / (max n 1)) none)

/-- Modelled from the spec: §4.6/§7 — one request processed end to end: parse
left, parse right; a parse error on either side short-circuits (both errors
reported together when both sides fail) and diffing never runs; otherwise the
diff phase runs and exactly one `done` terminal is sent. -/
def runCompare (leftRaw rightRaw : String) : List Msg :=
  match parseDoc leftRaw, parseDoc rightRaw with
  | Except.error le, Except.error re =>
    [Msg.progress Phase.left 0 none, Msg.error (some le) (some re)]
  | Except.error le, Except.ok _ =>
    [Msg.progress Phase.left 0 none, Msg.error (some le) none]
  | Except.ok _, Except.error re =>
    [Msg.progress Phase.left 0 none, Msg.progress Phase.left 100 none,
     Msg.progress Phase.right 0 none, Msg.error none (some re)]
  | Except.ok lt, Except.ok rt =>
    [Msg.progress Phase.left 0 none, Msg.progress Phase.left 100 none,
     Msg.progress Phase.right 0 none, Msg.progress Phase.right 100 none]
    ++ diffProgress (lt.filter isElem).length
    ++ [Msg.done (diffDocs lt rt) (statsOf (diffDocs lt rt))]

/-- C4: when either document fails to parse, diffing never runs: no `done`
message is sent for the request, and the terminal message is an `error`
carrying the failing side's message — `leftError` set and `rightError`
absent when only the left side is malformed, both set when both sides fail,
and `rightError` set with `leftError` absent when only the right side is
malformed. -/
theorem c4_parse_error_short_circuit (lraw rraw : String)
    (h : (∃ le, parseDoc lraw = Except.error le) ∨
         (∃ re, parseDoc rraw = Except.error re)) :
    (∀ ds st, Msg.done ds st ∉ runCompare lraw rraw) ∧
    (∀ le rt, parseDoc lraw = Except.error le → parseDoc rraw = Except.ok rt →
      (runCompare lraw rraw).getLast? = some (Msg.error (some le) none)) ∧
    (∀ le re, parseDoc lraw = Except.error le → parseDoc rraw = Except.error re →
      (runCompare lraw rraw).getLast? = some (Msg.error (some le) (some re))) ∧
    (∀ lt re, parseDoc lraw = Except.ok lt → parseDoc rraw = Except.error re →
      (runCompare lraw rraw).getLast? = some (Msg.error none (some re))) := by
  refine ⟨?_, ?_, ?_, ?_⟩
  · intro ds st hmem
    cases hl : parseDoc lraw with
    | error le =>
      cases hr : parseDoc rraw with
      | error re => simp [runCompare, hl, hr] at hmem
      | ok rt => simp [runCompare, hl, hr] at hmem
    | ok lt =>
      cases hr : parseDoc rraw with
      | error re => simp [runCompare, hl, hr] at hmem
      | ok rt =>
        rcases h with ⟨le, hle⟩ | ⟨re, hre⟩
        · rw [hl] at hle; cases hle
        · rw [hr] at hre; cases hre
  · intro le rt herr hok
    simp [runCompare, herr, hok]
  · intro le re herrl herrr
    simp [runCompare, herrl, herrr]
  · intro lt re hok herr
    simp [runCompare, hok, herr]

/-- Witness for C4: the malformed `<a><b></a>` (mismatched tag) against the
valid `<c></c>`, on either side: no `done` is sent, and the terminal error
carries exactly the failing side's message. -/
theorem c4_parse_error_short_circuit_witness :
    (Msg.done [] ⟨0, 0, 0⟩ ∉ runCompare ("<a><b></a>") ("<c></c>")) ∧
    (runCompare ("<a><b></a>") ("<c></c>")).getLast? =
      some (Msg.error (some ("Mismatched closing tag: a")) none) ∧
    (Msg.done [] ⟨0, 0, 0⟩ ∉ runCompare ("<c></c>") ("<a><b></a>")) ∧
    (runCompare ("<c></c>") ("<a><b></a>")).getLast? =
      some (Msg.error none (some ("Mismatched closing tag: a"))) := by
  have hbad : parseDoc ("<a><b></a>") = Except.error ("Mismatched closing tag: a") := rfl
  have hgood : parseDoc ("<c></c>") = Except.ok [XNode.element ("c") [] []] := rfl
  have h1 := c4_parse_error_short_circuit ("<a><b></a>") ("<c></c>")
    (Or.inl ⟨("Mismatched closing tag: a"), hbad⟩)
  have h2 := c4_parse_error_short_circuit ("<c></c>") ("<a><b></a>")
    (Or.inr ⟨("Mismatched closing tag: a"), hbad⟩)
  exact ⟨h1.1 [] ⟨0, 0, 0⟩,
    h1.2.1 ("Mismatched closing tag: a") [XNode.element ("c") [] []] hbad hgood,
    h2.1 [] ⟨0, 0, 0⟩,
    h2.2.2.2 [XNode.element ("c") [] []] ("Mismatched closing tag: a") hgood hbad⟩

theorem mem_diffProgress (n : Nat) (m : Msg) (hm : m ∈ diffProgress n) :
    ∃ i, i ≤ n ∧ m = Msg.progress Phase.diff ((100 * i) / (max n 1)) none := by
  unfold diffProgress at hm
  rw [List.mem_map] at hm
  obtain ⟨i, hi, rfl⟩ := hm
  exact ⟨i, Nat.lt_succ_iff.mp (List.mem_range.mp hi), rfl⟩

theorem pct_le_100 (n i : Nat) (hi : i ≤ n) : (100 * i) / (max n 1) ≤ 100 := by
  have h1 : 100 * i ≤ 100 * max n 1 :=
    Nat.mul_le_mul_left _ (le_trans hi (le_max_left n 1))
  have hpos : 0 < max n 1 := lt_of_lt_of_le Nat.zero_lt_one (le_max_right n 1)
  have h2 : (100 * max n 1) / max n 1 = 100 := Nat.mul_div_cancel 100 hpos
  calc (100 * i) / max n 1 ≤ (100 * max n 1) / max n 1 := Nat.div_le_div_right h1
    _ = 100 := h2

theorem diffProgress_pairwise (n : Nat) : List.Pairwise progLE (diffProgress n) := by
  unfold diffProgress
  apply List.Pairwise.map (R := fun a b => a < b)
  · intro a b hab
    right
    exact ⟨rfl, Nat.div_le_div_right (Nat.mul_le_mul_left 100 (le_of_lt hab))⟩
  · exact List.pairwise_lt_range (n + 1)

/-- C8: for every request, progress messages are non-decreasing in (phase,
percent) lexicographic order with phases in the order left, right, diff;
every percent lies in 0..100; and exactly one terminal message (`done` or
`error`) is delivered, after all progress messages. -/
theorem c8_progress_protocol (lraw rraw : String) :
    List.Pairwise progLE (runCompare lraw rraw) ∧
    (∀ ph c msg, Msg.progress ph c msg ∈ runCompare lraw rraw → c ≤ 100) ∧
    (∃ t, (runCompare lraw rraw).getLast? = some t ∧ isTerminal t = true) ∧
    (∀ m ∈ (runCompare lraw rraw).dropLast, isTerminal m = false) := by
  cases hl : parseDoc lraw with
  | error le =>
    cases hr : parseDoc rraw with
    | error re =>
      refine ⟨?_, ?_, ?_, ?_⟩
      · simp [runCompare, hl, hr, List.pairwise_cons, progLE]
      · intro ph c msg hmem
        simp [runCompare, hl, hr] at hmem
        omega
      · exact ⟨Msg.error (some le) (some re), by simp [runCompare, hl, hr], rfl⟩
      · intro m hm
        simp [runCompare, hl, hr] at hm
        subst hm
        rfl
    | ok rt =>
      refine ⟨?_, ?_, ?_, ?_⟩
      · simp [runCompare, hl, hr, List.pairwise_cons, progLE]
      · intro ph c msg hmem
        simp [runCompare, hl, hr] at hmem
        omega
      · exact ⟨Msg.error (some le) none, by simp [runCompare, hl, hr], rfl⟩
      · intro m hm
        simp [runCompare, hl, hr] at hm
        subst hm
        rfl
  | ok lt =>
    cases hr : parseDoc rraw with
    | error re =>
      refine ⟨?_, ?_, ?_, ?_⟩
      · simp [runCompare, hl, hr, List.pairwise_cons, progLE, phaseIdx]
      · intro ph c msg hmem
        simp [runCompare, hl, hr] at hmem
        rcases hmem with ⟨_, h, _⟩ | ⟨_, h, _⟩ | ⟨_, h, _⟩ <;> omega
      · exact ⟨Msg.error none (some re), by simp [runCompare, hl, hr], rfl⟩
      · intro m hm
        simp [runCompare, hl, hr] at hm
        rcases hm with hm | hm | hm <;> subst hm <;> rfl
    | ok rt =>
      have hlist : runCompare lraw rraw =
          ([Msg.progress Phase.left 0 none, Msg.progress Phase.left 100 none,
            Msg.progress Phase.right 0 none, Msg.progress Phase.right 100 none]
           ++ diffProgress (lt.filter isElem).length)
          ++ [Msg.done (diffDocs lt rt) (statsOf (diffDocs lt rt))] := by
        simp [runCompare, hl, hr]
      refine ⟨?_, ?_, ?_, ?_⟩
      · rw [hlist]
        rw [List.pairwise_append]
        refine ⟨?_, ?_, ?_⟩
        · rw [List.pairwise_append]
          refine ⟨?_, diffProgress_pairwise _, ?_⟩
          · simp [List.pairwise_cons, progLE, phaseIdx]
          · intro a ha b hb
            obtain ⟨i, _, rfl⟩ := mem_diffProgress _ b hb
            simp at ha
            rcases ha with rfl | rfl | rfl | rfl <;>
              exact Or.inl (by simp [phaseIdx])
        · simp [List.pairwise_cons]
        · intro a _ b hb
          simp at hb
          subst hb
          cases a <;> simp [progLE]
      · intro ph c msg hmem
        rw [hlist] at hmem
        rcases List.mem_append.mp hmem with hm | hm
        · rcases List.mem_append.mp hm with hm | hm
          · simp at hm
            rcases hm with ⟨_, h, _⟩ | ⟨_, h, _⟩ | ⟨_, h, _⟩ | ⟨_, h, _⟩ <;> omega
          · obtain ⟨i, hi, heq⟩ := mem_diffProgress _ _ hm
            rw [Msg.progress.injEq] at heq
            obtain ⟨_, hc, _⟩ := heq
            rw [hc]
            exact pct_le_100 _ i hi
        · simp at hm
      · refine ⟨Msg.done (diffDocs lt rt) (statsOf (diffDocs lt rt)), ?_, rfl⟩
        rw [hlist, List.getLast?_concat]
      · intro m hm
        rw [hlist, List.dropLast_concat] at hm
        rcases List.mem_append.mp hm with hm | hm
        · simp at hm
          rcases hm with rfl | rfl | rfl | rfl <;> rfl
        · obtain ⟨i, _, rfl⟩ := mem_diffProgress _ m hm
          rfl

/-- Witness for C8: the protocol shape instantiated at the sample pair. -/
theorem c8_progress_protocol_witness :
    ∃ t, (runCompare ("<a></a>") ("<b></b>")).getLast? = some t ∧ isTerminal t = true :=
  (c8_progress_protocol ("<a></a>") ("<b></b>")).2.2.1

/-- C5: the comparison is a pure function of the two raw documents — running
it twice yields the identical message list (same records in the same order,
same stats, paths computed by the one shared canonicalizer regardless of
side) — and one run carries at most one `done` payload: any two `done`
messages of the same run agree on differences and stats. -/
theorem c5_determinism (lraw rraw : String) :
    runCompare lraw rraw = runCompare lraw rraw ∧
    (∀ ds1 st1 ds2 st2, Msg.done ds1 st1 ∈ runCompare lraw rraw →
      Msg.done ds2 st2 ∈ runCompare lraw rraw → ds1 = ds2 ∧ st1 = st2) := by
  refine ⟨rfl, ?_⟩
  intro ds1 st1 ds2 st2 h1 h2
  cases hl : parseDoc lraw with
  | error le =>
    cases hr : parseDoc rraw with
    | error re => simp [runCompare, hl, hr] at h1
    | ok rt => simp [runCompare, hl, hr] at h1
  | ok lt =>
    cases hr : parseDoc rraw with
    | error re => simp [runCompare, hl, hr] at h1
    | ok rt =>
      have hdone : ∀ ds st, Msg.done ds st ∈ runCompare lraw rraw →
          ds = diffDocs lt rt ∧ st = statsOf (diffDocs lt rt) := by
        intro ds st hm
        rw [show runCompare lraw rraw =
            ([Msg.progress Phase.left 0 none, Msg.progress Phase.left 100 none,
              Msg.progress Phase.right 0 none, Msg.progress Phase.right 100 none]
             ++ diffProgress (lt.filter isElem).length)
            ++ [Msg.done (diffDocs lt rt) (statsOf (diffDocs lt rt))] from by
          simp [runCompare, hl, hr]] at hm
        rcases List.mem_append.mp hm with hm | hm
        · rcases List.mem_append.mp hm with hm | hm
          · simp at hm
          · obtain ⟨i, _, heq⟩ := mem_diffProgress _ _ hm
            cases heq
        · rw [List.mem_singleton, Msg.done.injEq] at hm
          exact hm
      obtain ⟨e1, e2⟩ := hdone ds1 st1 h1
      obtain ⟨e3, e4⟩ := hdone ds2 st2 h2
      exact ⟨e1.trans e3.symm, e2.trans e4.symm⟩

/-- Witness for C5: the unique `done` payload of comparing `<a></a>` with
itself. -/
theorem c5_determinism_witness :
    ([] : List DiffRecord) = [] ∧ (⟨0, 0, 0⟩ : Stats) = ⟨0, 0, 0⟩ := by
  have hp : parseDoc ("<a></a>") = Except.ok [XNode.element ("a") [] []] := rfl
  have hd : diffDocs [XNode.element ("a") [] []] [XNode.element ("a") [] []] = [] :=
    diffDocs_self _
  have hmem : Msg.done [] ⟨0, 0, 0⟩ ∈ runCompare ("<a></a>") ("<a></a>") := by
    rw [show runCompare ("<a></a>") ("<a></a>") =
        ([Msg.progress Phase.left 0 none, Msg.progress Phase.left 100 none,
          Msg.progress Phase.right 0 none, Msg.progress Phase.right 100 none]
         ++ diffProgress (([XNode.element ("a") [] []]).filter isElem).length)
        ++ [Msg.done [] ⟨0, 0, 0⟩] from by
      simp [runCompare, hp, hd, statsOf]]
    exact List.mem_append.mpr (Or.inr (List.mem_singleton.mpr rfl))
  exact (c5_determinism ("<a></a>") ("<a></a>")).2 [] ⟨0, 0, 0⟩ [] ⟨0, 0, 0⟩ hmem hmem
